import Mathlib

/-!
# Verification of the Arrango timetable solver core

A shallow embedding of `core/solver/solver.go` (together with the data model of
`common/models/input/input.go` and `common/models/output/output.go`), and proofs
of the specified properties of the evolutionary timetable search.

Modelling conventions:
* `GlobalSubject`, `Teacher`, `Classroom` and group tags are opaque interned
  identifiers in Go (pointers into the catalog arrays, whose string values are
  pairwise distinct, so pointer equality and value equality coincide).  They are
  modelled as `Nat` identities; Go pointers (`*Teacher` etc.) become `Option Nat`.
* Go machine integers stay well inside 64 bits here (scores are small sums of
  1000/500/5-weighted counts), so scores are modelled as `Int` and sizes as `Nat`.
* The global `math/rand` source is modelled as an explicitly threaded linear
  congruential generator `Rng`; `rand.Seed(time.Now().UnixNano())` at the top of
  `Solve` is modelled by passing the observed clock value as the `seed` argument.
  `rand.Intn(n)` panics for `n <= 0`; that is modelled by `Option`.
  `rand.Float64()` produces a dyadic rational in `[0,1)`; the single comparison
  `rand.Float64() > MutationRate` is modelled by exact rational comparison
  (cross-multiplication with the rate's numerator/denominator).
* Go's `sort.Slice` (deterministic, unstable) is modelled by a deterministic
  insertion sort on ascending fitness; no verified property depends on the
  relative order of equal-fitness individuals.
* Panics (`rand.Intn(0)`, indexing an empty population) make `Solver.solve`
  return `none`.
-/

/-! ## Data model (input side, `common/models/input/input.go`) -/

/-- `input.Subject`: one per-division subject requirement.  `placement` is the
inert `any`/`edges`/`middle` category (never read by the solver), `group` the
`none`/`one`/`two`/`three` tag.  `allocation` is the 5-entry weekly allocation
vector (`[5]uint` in Go; modelled as a list, only ever iterated in order). -/
structure Subject where
  globalSubject : Option Nat
  allocation : List Nat
  placement : Nat
  teacher : Option Nat
  classrooms : List Nat
  group : Nat
deriving DecidableEq, Repr

/-- `input.Division`: a cohort with its ordered subject requirements. -/
structure Division where
  name : String
  weight : Nat
  subjects : List Subject
deriving DecidableEq, Repr

/-- `input.InputData`: the Problem Instance. -/
structure InputData where
  globalSubjects : List Nat
  classrooms : List Nat
  teachers : List Nat
  divisions : List Division
deriving DecidableEq, Repr

/-! ## Data model (output side, `common/models/output/output.go`) -/

/-- `output.Subject`: one lesson entry; all fields are optional pointers in Go.
A lesson whose `globalSubject` is `none` is an unused parallel slot. -/
structure OutSubject where
  globalSubject : Option Nat
  teacher : Option Nat
  classroom : Option Nat
  group : Option Nat
deriving DecidableEq, Repr

/-- `output.SubjectsGroup`: up to 3 parallel lessons in one period (Go `[3]Subject`;
modelled as a list — the solver only ever iterates over the entries, and the
candidate builder fills position 0 and leaves the rest empty). -/
abbrev SubjectsGroup := List OutSubject

/-- `output.Day`: the ordered periods of one weekday. -/
abbrev Day := List SubjectsGroup

/-- A 5-component container, one slot per weekday (Go's `[5]T`). -/
structure Days5 (α : Type) where
  d0 : α
  d1 : α
  d2 : α
  d3 : α
  d4 : α
deriving DecidableEq, Repr

/-- Index a `Days5` by a Go `int` weekday index (callers only use 0..4). -/
def Days5.getN {α : Type} (d : Days5 α) (i : Nat) : α :=
  match i with
  | 0 => d.d0
  | 1 => d.d1
  | 2 => d.d2
  | 3 => d.d3
  | _ => d.d4

/-- Update a `Days5` at a Go `int` weekday index (callers only use 0..4). -/
def Days5.setN {α : Type} (d : Days5 α) (i : Nat) (x : α) : Days5 α :=
  match i with
  | 0 => { d with d0 := x }
  | 1 => { d with d1 := x }
  | 2 => { d with d2 := x }
  | 3 => { d with d3 := x }
  | _ => { d with d4 := x }

/-- The weekdays in index order, matching `for day := 0; day < 5; day++`. -/
def Days5.toList {α : Type} (d : Days5 α) : List α :=
  [d.d0, d.d1, d.d2, d.d3, d.d4]

/-- `output.Days`: one week's timetable for a division. -/
abbrev Days := Days5 Day

/-- The zero value of `output.Days` (five empty weekdays). -/
def emptyDays : Days := ⟨[], [], [], [], []⟩

/-- `solver.Individual`: one candidate solution, one `Days` per division. -/
structure Individual where
  timetables : List Days
deriving DecidableEq, Repr

/-- `output.OutputData`. -/
structure OutputData where
  divisionsTimetables : List Days
deriving DecidableEq, Repr

/-! ## Random source model -/

/-- Explicit model of the (seeded) global `math/rand` source: a linear
congruential generator on a `Nat` state. -/
structure Rng where
  state : Nat
deriving DecidableEq, Repr

/-- One step of the generator. -/
def Rng.next (r : Rng) : Nat × Rng :=
  let s := (r.state * 1103515245 + 12345) % 2 ^ 31
  (s, ⟨s⟩)

/-- `rand.Intn n`: uniform draw in `[0, n)`; Go panics when `n <= 0`, modelled
by `none`. -/
def randIntn (n : Nat) (r : Rng) : Option (Nat × Rng) :=
  if n = 0 then none
  else
    let p := r.next
    some (p.1 % n, p.2)

/-- `rand.Intn n` at a call site that has already checked `n > 0` (total form;
agrees with `randIntn` for positive `n`). -/
def randIntnPos (n : Nat) (r : Rng) : Nat × Rng :=
  let p := r.next
  (p.1 % n, p.2)

/-- The numerator of a `rand.Float64()` draw over `2 ^ 53` (a dyadic rational
in `[0,1)`). -/
def randFloatNum (r : Rng) : Nat × Rng :=
  let p := r.next
  (p.1 % 2 ^ 53, p.2)

/-! ## `solver.Solver` configuration -/

/-- The solver configuration (`solver.Solver`). -/
structure Solver where
  populationSize : Nat
  generations : Nat
  mutationRate : ℚ

/-! ## Chunk extraction (`extractSubjectChunks`, solver.go:84-97) -/

/-- `solver.subjectChunk`: an indivisible block of `size` consecutive hours of
one subject requirement. -/
structure SubjectChunk where
  subj : Subject
  size : Nat
deriving DecidableEq, Repr

/-- `extractSubjectChunks` (solver.go:84): one chunk per positive entry of each
subject's allocation vector, accumulated in iteration order. -/
def extractSubjectChunks (div : Division) : List SubjectChunk :=
  div.subjects.foldl
    (fun chunks subj =>
      subj.allocation.foldl
        (fun chunks2 alloc =>
          if 0 < alloc then chunks2 ++ [{ subj := subj, size := alloc }] else chunks2)
        chunks)
    []

/-! ## Candidate builder (`randomIndividual`, solver.go:106-141) -/

/-- `pickClassroom` (solver.go:99): a uniformly random acceptable classroom, or
none when the subject is unconstrained (no randomness consumed then). -/
def pickClassroom (subj : Subject) (rng : Rng) : Option Nat × Rng :=
  if 0 < subj.classrooms.length then
    let p := randIntnPos subj.classrooms.length rng
    (some (subj.classrooms.getD p.1 0), p.2)
  else (none, rng)

/-- `pickLeastLoadedDay` (solver.go:144): one accumulator step of the scan for
the weekday with the fewest groups. -/
def pickStep (days : Days) (acc : Nat × Nat) (i : Nat) : Nat × Nat :=
  if (days.getN i).length < acc.2 then (i, (days.getN i).length) else acc

/-- `pickLeastLoadedDay` (solver.go:144): index of the weekday with the fewest
scheduled groups, ties broken by the lowest index. -/
def pickLeastLoadedDay (days : Days) : Nat :=
  (pickStep days (pickStep days (pickStep days (pickStep days (0, days.d0.length) 1) 2) 3) 4).1

/-- The loop body of solver.go:125-134: append `size` single-lesson periods for
`subj` to weekday `dayIdx`, drawing a classroom per period. -/
def appendLessons (subj : Subject) (dayIdx : Nat) : Nat → Days → Rng → Days × Rng
  | 0, days, rng => (days, rng)
  | n + 1, days, rng =>
    let pc := pickClassroom subj rng
    let sg : SubjectsGroup :=
      [{ globalSubject := subj.globalSubject
         teacher := subj.teacher
         classroom := pc.1
         group := some subj.group },
       { globalSubject := none, teacher := none, classroom := none, group := none },
       { globalSubject := none, teacher := none, classroom := none, group := none }]
    appendLessons subj dayIdx n (days.setN dayIdx (days.getN dayIdx ++ [sg])) pc.2

/-- solver.go:120-135: place one chunk on the currently least-loaded weekday. -/
def placeChunk (days : Days) (chunk : SubjectChunk) (rng : Rng) : Days × Rng :=
  let dayIdx := pickLeastLoadedDay days
  appendLessons chunk.subj dayIdx chunk.size days rng

/-- solver.go:110-137 (per division): fold the chunk placements. -/
def buildDivision (div : Division) (rng : Rng) : Days × Rng :=
  (extractSubjectChunks div).foldl (fun p chunk => placeChunk p.1 chunk p.2) (emptyDays, rng)

/-- Build the timetables of all divisions in order, threading the generator. -/
def buildDivisions : List Division → Rng → List Days × Rng
  | [], rng => ([], rng)
  | div :: rest, rng =>
    let p := buildDivision div rng
    let q := buildDivisions rest p.2
    (p.1 :: q.1, q.2)

/-- `randomIndividual` (solver.go:107). -/
def randomIndividual (input : InputData) (rng : Rng) : Individual × Rng :=
  let p := buildDivisions input.divisions rng
  ({ timetables := p.1 }, p.2)

/-- `initializePopulation` (solver.go:156): `populationSize` random individuals,
generated in index order. -/
def initPopulation (s : Solver) (input : InputData) (rng : Rng) : List Individual × Rng :=
  go s.populationSize rng
where
  go : Nat → Rng → List Individual × Rng
    | 0, rng => ([], rng)
    | n + 1, rng =>
      let p := randomIndividual input rng
      let q := go n p.2
      (p.1 :: q.1, q.2)

/-! ## Fitness evaluator (`fitness`, solver.go:164-270)

The Go function accumulates one `score` over three disjoint phases (overlap
checking, allocation checking, day-balance checking); the model keeps the three
phases as separate sums whose total is `fitness`. -/

/-- The traversal order of solver.go:175-205: every lesson entry of the
individual together with its `(day, slot)` key (division outer, weekday 0..4,
period index, then the up-to-3 parallel entries). -/
def lessonStream (ind : Individual) : List ((Nat × Nat) × OutSubject) :=
  (ind.timetables.map fun divTT =>
    (divTT.toList.enum.map fun dayPair =>
      (dayPair.2.enum.map fun slotPair =>
        slotPair.2.map fun subj => ((dayPair.1, slotPair.1), subj)).flatten).flatten).flatten

/-- The state of the overlap scan: the `teacherUsed` and `classroomUsed` sets
(Go maps used only for membership) and the accumulated score. -/
structure OverlapSt where
  tUsed : List ((Nat × Nat) × Nat)
  cUsed : List ((Nat × Nat) × Nat)
  score : Int
deriving Repr

/-- One lesson entry of the overlap scan (solver.go:179-203): skip empty
entries; charge 1000 per already-seen (slot, teacher) and per already-seen
(slot, classroom), otherwise record the occupancy. -/
def overlapVisit (st : OverlapSt) (e : (Nat × Nat) × OutSubject) : OverlapSt :=
  if e.2.globalSubject = none then st
  else
    let st1 :=
      match e.2.teacher with
      | none => st
      | some t =>
        if (e.1, t) ∈ st.tUsed then { st with score := st.score + 1000 }
        else { st with tUsed := (e.1, t) :: st.tUsed }
    match e.2.classroom with
    | none => st1
    | some c =>
      if (e.1, c) ∈ st1.cUsed then { st1 with score := st1.score + 1000 }
      else { st1 with cUsed := (e.1, c) :: st1.cUsed }

/-- The teacher/classroom overlap phase of `fitness` (solver.go:167-206). -/
def overlapScore (ind : Individual) : Int :=
  ((lessonStream ind).foldl overlapVisit ⟨[], [], 0⟩).score

/-- Whether a placed lesson counts toward a required chunk (solver.go:222-223):
Go compares the `GlobalSubject` and `Teacher` pointers. -/
def chunkMatches (c : SubjectChunk) (subj : OutSubject) : Prop :=
  c.subj.globalSubject = subj.globalSubject ∧ c.subj.teacher = subj.teacher

instance (c : SubjectChunk) (subj : OutSubject) : Decidable (chunkMatches c subj) := by
  unfold chunkMatches; infer_instance

/-- solver.go:221-229: one placed lesson decrements the remaining count of
every chunk it matches (saturating at zero). -/
def decLesson (subj : OutSubject) (remaining : List SubjectChunk) : List SubjectChunk :=
  remaining.map fun c =>
    if chunkMatches c subj then
      if 0 < c.size then { c with size := c.size - 1 } else c
    else c

/-- The lessons of one division in traversal order (solver.go:215-217). -/
def divisionLessons (tt : Days) : List OutSubject :=
  (tt.toList.map fun day => day.flatten).flatten

/-- solver.go:215-232: remaining chunk counts of one division after crediting
every placed lesson (entries with no subject are skipped). -/
def remAfter (div : Division) (tt : Days) : List SubjectChunk :=
  (divisionLessons tt).foldl
    (fun remaining subj =>
      if subj.globalSubject = none then remaining else decLesson subj remaining)
    (extractSubjectChunks div)

/-- solver.go:234-239: 500 per missing hour of each unmet chunk. -/
def allocDivScore (div : Division) (tt : Days) : Int :=
  (remAfter div tt).foldl
    (fun score c => if 0 < c.size then score + (c.size : Int) * 500 else score) 0

/-- The allocation phase of `fitness` (solver.go:208-240): the Go loop indexes
`ind.Timetables[dIdx]`; a missing timetable is modelled by the zero value. -/
def allocScore (input : InputData) (ind : Individual) : Int :=
  input.divisions.enum.foldl
    (fun score p => score + allocDivScore p.2 (ind.timetables.getD p.1 emptyDays)) 0

/-- solver.go:251-254: the five weekday period counts of a division. -/
def dayLoads (tt : Days) : List Nat :=
  tt.toList.map List.length

/-- solver.go:255-263: minimum weekday load, scanned from `dayCounts[0]`. -/
def minLoad (tt : Days) : Nat :=
  min (min (min (min tt.d0.length tt.d1.length) tt.d2.length) tt.d3.length)
    tt.d4.length

/-- solver.go:255-263: maximum weekday load, scanned from `dayCounts[0]`. -/
def maxLoad (tt : Days) : Nat :=
  max (max (max (max tt.d0.length tt.d1.length) tt.d2.length) tt.d3.length)
    tt.d4.length

/-- solver.go:264-266: the per-division day-balance penalty. -/
def balanceContrib (tt : Days) : Int :=
  if 4 < maxLoad tt - minLoad tt then ((maxLoad tt - minLoad tt : Nat) : Int) * 5 else 0

/-- The soft-balance phase of `fitness` (solver.go:248-267). -/
def balanceScore (ind : Individual) : Int :=
  ind.timetables.foldl (fun score tt => score + balanceContrib tt) 0

/-- `fitness` (solver.go:164): the total penalty score. -/
def fitness (input : InputData) (ind : Individual) : Int :=
  overlapScore ind + allocScore input ind + balanceScore ind

/-! ## Genetic operators (`crossover` solver.go:272-285, `mutate` solver.go:287-299)

These are the value-level semantics of the Go operators (the result each
produces).  The Go implementation shares slice backing arrays between the child
and its parents; that aliasing is modelled separately (see the store-passing
model further below), since it is invisible at the level of returned values. -/

/-- `crossover` (solver.go:272): the child starts as a copy of parent 1 and, if
there is at least one division, one random division has two random weekdays
overwritten with parent 2's corresponding weekdays. -/
def crossover (p1 p2 : Individual) (rng : Rng) : Individual × Rng :=
  if 0 < p1.timetables.length then
    let pd := randIntnPos p1.timetables.length rng
    let dx := pd.1
    let pa := randIntnPos 5 pd.2
    let dayA := pa.1
    let pb := randIntnPos 5 pa.2
    let dayB := pb.1
    let ttP2 := p2.timetables.getD dx emptyDays
    let tt1 := (p1.timetables.getD dx emptyDays).setN dayA (ttP2.getN dayA)
    let tt2 := tt1.setN dayB (ttP2.getN dayB)
    ({ timetables := p1.timetables.set dx tt2 }, pb.2)
  else ({ timetables := p1.timetables }, rng)

/-- `mutate` (solver.go:287): with probability `mutationRate`, swap two random
periods of one random division/weekday (no-op when that weekday has fewer than
2 periods).  `rand.Float64() > MutationRate` is decided exactly on rationals;
`rand.Intn(len(ind.Timetables))` panics (`none`) when there are no divisions. -/
def mutate (s : Solver) (ind : Individual) (rng : Rng) : Option (Individual × Rng) :=
  let pf := randFloatNum rng
  if s.mutationRate.num * 2 ^ 53 < (pf.1 : Int) * (s.mutationRate.den : Int) then
    some (ind, pf.2)
  else
    match randIntn ind.timetables.length pf.2 with
    | none => none
    | some (dx, rng1) =>
      let pd := randIntnPos 5 rng1
      let day := pd.1
      let tt := ind.timetables.getD dx emptyDays
      let dayList := tt.getN day
      if 1 < dayList.length then
        let p1 := randIntnPos dayList.length pd.2
        let slot1 := p1.1
        let p2 := randIntnPos dayList.length p1.2
        let slot2 := p2.1
        let swapped := (dayList.set slot1 (dayList.getD slot2 [])).set slot2
          (dayList.getD slot1 [])
        some ({ timetables := ind.timetables.set dx (tt.setN day swapped) }, p2.2)
      else some (ind, pd.2)

/-! ## Evolutionary loop (`Solve`, solver.go:23-76) -/

/-- solver.go:36-47: score the population in order, tracking the best-seen
individual and score; the scan stops early as soon as a score of 0 appears. -/
def evalLoop (input : InputData) :
    List Individual → Individual → Int → List (Individual × Int) × Individual × Int
  | [], best, bestF => ([], best, bestF)
  | ind :: rest, best, bestF =>
    let f := fitness input ind
    if f < bestF then
      if f = 0 then ([(ind, f)], ind, f)
      else
        let r := evalLoop input rest ind f
        ((ind, f) :: r.1, r.2)
    else
      let r := evalLoop input rest best bestF
      ((ind, f) :: r.1, r.2)

/-- Insert into a list sorted by ascending fitness (deterministic model of the
deterministic but unstable `sort.Slice` at solver.go:53-55; no verified
property depends on the relative order of equal scores). -/
def insertByFitness (x : Individual × Int) : List (Individual × Int) → List (Individual × Int)
  | [] => [x]
  | y :: ys => if x.2 < y.2 then x :: y :: ys else y :: insertByFitness x ys

/-- Sort by ascending fitness (model of solver.go:53-55). -/
def sortByFitness : List (Individual × Int) → List (Individual × Int)
  | [] => []
  | x :: xs => insertByFitness x (sortByFitness xs)

/-- solver.go:64-70: breed children from the sorted pool until the next
generation is full.  `fits[rand.Intn(s.PopulationSize/2)]` panics (`none`) when
the draw range is 0 or the index is out of range. -/
def reproduceLoop (s : Solver) (input : InputData) (sorted : List (Individual × Int)) :
    Nat → List Individual → Rng → Option (List Individual × Rng)
  | 0, acc, rng => some (acc, rng)
  | n + 1, acc, rng =>
    match randIntn (s.populationSize / 2) rng with
    | none => none
    | some (i1, rng1) =>
      match randIntn (s.populationSize / 2) rng1 with
      | none => none
      | some (i2, rng2) =>
        match sorted.get? i1, sorted.get? i2 with
        | some p1, some p2 =>
          let pc := crossover p1.1 p2.1 rng2
          match mutate s pc.1 pc.2 with
          | none => none
          | some (child, rng3) => reproduceLoop s input sorted n (acc ++ [child]) rng3
        | _, _ => none

/-- solver.go:31-73: the generation loop.  Each round evaluates the population,
stops with the best-seen individual once its score is 0 (or once the budget is
exhausted), otherwise keeps the elite top half (solver.go:57-61 indexes
`fits[i]` for `i < PopulationSize/2`, a panic — `none` — if the population is
shorter) and refills by reproduction. -/
def genLoop (s : Solver) (input : InputData) :
    Nat → List Individual → Individual → Int → Rng → Option (Individual × Rng)
  | 0, _, best, _, rng => some (best, rng)
  | g + 1, pop, best, bestF, rng =>
    let e := evalLoop input pop best bestF
    if e.2.2 = 0 then some (e.2.1, rng)
    else
      let sorted := sortByFitness e.1
      if s.populationSize / 2 ≤ sorted.length then
        let elite := (sorted.take (s.populationSize / 2)).map Prod.fst
        match reproduceLoop s input sorted (s.populationSize - s.populationSize / 2) elite rng with
        | none => none
        | some (nextPop, rng1) => genLoop s input g nextPop e.2.1 e.2.2 rng1
      else none

/-- `Solve` (solver.go:23): seed the generator (the Go code seeds the global
source from `time.Now().UnixNano()`; the observed clock value is the `seed`
argument), build the initial population, run the generation loop, and emit the
best-seen individual.  `pop[0]` on an empty population panics (`none`). -/
def Solver.solve (s : Solver) (input : InputData) (seed : Nat) : Option OutputData :=
  let rng : Rng := ⟨seed⟩
  let pr := initPopulation s input rng
  match pr.1 with
  | [] => none
  | ind0 :: _ =>
    let bestF := fitness input ind0
    match genLoop s input s.generations pr.1 ind0 bestF pr.2 with
    | none => none
    | some (best, _) => some { divisionsTimetables := best.timetables }

/-! ## The store-passing model of `crossover`/`mutate` (Go slice aliasing)

In Go, `output.Day` is a slice: a `Days` value holds five slice headers
pointing into backing arrays.  `crossover` copies `Days` values (headers, not
arrays), and `mutate` writes elements through those headers.  To reason about
this sharing, days are modelled as references (`Nat` addresses) into an
explicit store holding the period lists. -/

/-- A store of day backing arrays, addressed by index. -/
abbrev Store := List (List SubjectsGroup)

/-- A division timetable as five day references (Go's `Days` value: five slice
headers). -/
abbrev DaysRef := Days5 Nat

/-- An individual as per-division day references (the Go `Timetables` slice
contents; `crossover`'s `make` + `copy` gives the child its own fresh list of
these values, so the list itself is modelled immutably). -/
abbrev IndividualRef := List DaysRef

/-- Read one division timetable of the store-level representation. -/
def derefDays (store : Store) (tt : DaysRef) : Days :=
  ⟨store.getD tt.d0 [], store.getD tt.d1 [], store.getD tt.d2 [], store.getD tt.d3 [],
    store.getD tt.d4 []⟩

/-- `crossover` (solver.go:272) at the store level: `copy(child.Timetables,
p1.Timetables)` copies the five day headers of each division; the two
overwrites copy day headers from parent 2.  The store is untouched — no day
data is copied. -/
def crossoverRef (p1 p2 : IndividualRef) (rng : Rng) : IndividualRef × Rng :=
  if 0 < p1.length then
    let pd := randIntnPos p1.length rng
    let dx := pd.1
    let pa := randIntnPos 5 pd.2
    let dayA := pa.1
    let pb := randIntnPos 5 pa.2
    let dayB := pb.1
    let ttP2 := p2.getD dx ⟨0, 0, 0, 0, 0⟩
    let tt1 := (p1.getD dx ⟨0, 0, 0, 0, 0⟩).setN dayA (ttP2.getN dayA)
    let tt2 := tt1.setN dayB (ttP2.getN dayB)
    (p1.set dx tt2, pb.2)
  else (p1, rng)

/-- `mutate` (solver.go:287) at the store level: the swap
`ind.Timetables[dx][day][slot1], ind.Timetables[dx][day][slot2] = ...` writes
through the day header into the backing array, i.e. updates the store cell; the
individual's own headers are never reassigned. -/
def mutateRef (s : Solver) (ind : IndividualRef) (store : Store) (rng : Rng) :
    Option (Store × Rng) :=
  let pf := randFloatNum rng
  if s.mutationRate.num * 2 ^ 53 < (pf.1 : Int) * (s.mutationRate.den : Int) then
    some (store, pf.2)
  else
    match randIntn ind.length pf.2 with
    | none => none
    | some (dx, rng1) =>
      let pd := randIntnPos 5 rng1
      let day := pd.1
      let addr := (ind.getD dx ⟨0, 0, 0, 0, 0⟩).getN day
      let dayList := store.getD addr []
      if 1 < dayList.length then
        let p1 := randIntnPos dayList.length pd.2
        let slot1 := p1.1
        let p2 := randIntnPos dayList.length p1.2
        let slot2 := p2.1
        let swapped := (dayList.set slot1 (dayList.getD slot2 [])).set slot2
          (dayList.getD slot1 [])
        some (store.set addr swapped, p2.2)
      else some (store, pd.2)

/-! ## General helper lemmas -/

/-- Folding a conditional append over a list collects the mapped positives. -/
theorem foldl_filter_append (subj : Subject) :
    ∀ (al : List Nat) (acc : List SubjectChunk),
      al.foldl
        (fun chunks2 alloc =>
          if 0 < alloc then chunks2 ++ [{ subj := subj, size := alloc }] else chunks2) acc
      = acc ++ (al.filter (fun a => decide (0 < a))).map
          (fun a => { subj := subj, size := a }) := by
  intro al
  induction al with
  | nil => intro acc; simp
  | cons a al ih =>
    intro acc
    by_cases h : 0 < a
    · simp [List.foldl_cons, h, ih, List.filter_cons]
    · simp [List.foldl_cons, h, ih, List.filter_cons]

/-- An `Int`-valued accumulating fold is the starting value plus the mapped sum. -/
theorem foldl_add_eq {α : Type} (f : α → Int) :
    ∀ (l : List α) (a : Int), l.foldl (fun s x => s + f x) a = a + (l.map f).sum := by
  intro l
  induction l with
  | nil => intro a; simp
  | cons x xs ih => intro a; simp [List.foldl_cons, ih, add_assoc]

/-! ## C5: the Chunk Extractor -/

/-- The specification-side description of the Chunk Extractor (§4.1 of the
spec): one chunk per non-zero entry across all subjects' allocation vectors,
with the chunk's size equal to that entry, preserving subject iteration order
and allocation-vector index order. -/
def specSubjectChunks (div : Division) : List SubjectChunk :=
  (div.subjects.map fun subj =>
    (subj.allocation.filter (fun a => decide (0 < a))).map
      fun a => { subj := subj, size := a }).flatten

/-- The outer fold of `extractSubjectChunks` collects the per-subject chunk
lists in order. -/
theorem extract_foldl_eq :
    ∀ (subs : List Subject) (acc : List SubjectChunk),
      subs.foldl
        (fun chunks subj =>
          subj.allocation.foldl
            (fun chunks2 alloc =>
              if 0 < alloc then chunks2 ++ [{ subj := subj, size := alloc }] else chunks2)
            chunks) acc
      = acc ++ (subs.map fun subj =>
          (subj.allocation.filter (fun a => decide (0 < a))).map
            fun a => { subj := subj, size := a }).flatten := by
  intro subs
  induction subs with
  | nil => intro acc; simp
  | cons s ss ih =>
    intro acc
    rw [List.foldl_cons, foldl_filter_append, ih]
    simp [List.append_assoc]

/-- C5.  `extractSubjectChunks` returns exactly one chunk for each non-zero
entry of each subject's allocation vector, with the chunk's size equal to that
entry, in subject iteration order and, within a subject, in allocation-vector
index order (`specSubjectChunks` is precisely that description); being a plain
function of the `Division`, it has no side effects. -/
theorem extractSubjectChunks_eq_spec (div : Division) :
    extractSubjectChunks div = specSubjectChunks div := by
  unfold extractSubjectChunks specSubjectChunks
  simpa using extract_foldl_eq div.subjects []

/-! ## Counting duplicate occurrences

`fitness` charges 1000 for every occurrence of a (slot, teacher) or
(slot, classroom) pair beyond the first; `dupCount seen l` counts the
occurrences in `l` that repeat an earlier one (or one in `seen`). -/

/-- Number of entries of the second list that duplicate an earlier entry or an
entry of the first list. -/
def dupCount {α : Type} [DecidableEq α] : List α → List α → Nat
  | _, [] => 0
  | seen, x :: xs => if x ∈ seen then 1 + dupCount seen xs else dupCount (x :: seen) xs

theorem dupCount_add_card {α : Type} [DecidableEq α] :
    ∀ (l seen : List α),
      dupCount seen l + ((seen ++ l).toFinset.card) = l.length + seen.toFinset.card := by
  intro l
  induction l with
  | nil => intro seen; simp [dupCount]
  | cons x xs ih =>
    intro seen
    by_cases hx : x ∈ seen
    · have hset : ((seen ++ x :: xs).toFinset : Finset α) = (seen ++ xs).toFinset := by
        simp only [List.toFinset_append, List.toFinset_cons, Finset.union_insert]
        exact Finset.insert_eq_self.mpr (Finset.mem_union_left _ (List.mem_toFinset.mpr hx))
      rw [dupCount, if_pos hx, hset]
      have := ih seen
      simp only [List.length_cons]
      omega
    · have hset : ((seen ++ x :: xs).toFinset : Finset α) = ((x :: seen) ++ xs).toFinset := by
        simp only [List.toFinset_append, List.toFinset_cons, Finset.union_insert,
          Finset.insert_union]
      have hcard : ((x :: seen).toFinset : Finset α).card = seen.toFinset.card + 1 := by
        rw [List.toFinset_cons,
          Finset.card_insert_of_not_mem (fun hmem => hx (List.mem_toFinset.mp hmem))]
      rw [dupCount, if_neg hx, hset]
      have := ih (x :: seen)
      simp only [List.length_cons] at this ⊢
      omega

theorem dupCount_nil_add_card {α : Type} [DecidableEq α] (l : List α) :
    dupCount [] l + l.toFinset.card = l.length := by
  simpa using dupCount_add_card l []

theorem dupCount_eq_zero_iff {α : Type} [DecidableEq α] (l : List α) :
    dupCount [] l = 0 ↔ l.Nodup := by
  have hadd := dupCount_nil_add_card l
  have hcard : l.toFinset.card = l.dedup.length := List.card_toFinset l
  constructor
  · intro h0
    have hlen : l.dedup.length = l.length := by omega
    have : l.dedup = l := (List.dedup_sublist l).eq_of_length hlen
    exact List.dedup_eq_self.mp this
  · intro hnd
    have : l.dedup = l := List.dedup_eq_self.mpr hnd
    have : l.dedup.length = l.length := by rw [this]
    omega

theorem dupCount_middle_mem {α : Type} [DecidableEq α] (l₁ l₂ : List α) (x : α)
    (hnd : (l₁ ++ l₂).Nodup) (hx : x ∈ l₁ ++ l₂) :
    dupCount [] (l₁ ++ x :: l₂) = 1 := by
  have hadd := dupCount_nil_add_card (l₁ ++ x :: l₂)
  have hxf : x ∈ ((l₁ ++ l₂).toFinset : Finset α) := List.mem_toFinset.mpr hx
  have hset : ((l₁ ++ x :: l₂).toFinset : Finset α) = (l₁ ++ l₂).toFinset := by
    simp only [List.toFinset_append, List.toFinset_cons, Finset.union_insert]
    rw [← List.toFinset_append]
    exact Finset.insert_eq_self.mpr hxf
  have hcard : ((l₁ ++ l₂).toFinset : Finset α).card = (l₁ ++ l₂).length :=
    List.toFinset_card_of_nodup hnd
  rw [hset, hcard] at hadd
  simp only [List.length_append, List.length_cons] at hadd ⊢
  omega

/-! ## Characterizing the overlap phase -/

/-- The (slot, teacher) occupancy of one lesson entry, if any (the entries the
overlap scan records in `teacherUsed`). -/
def tKey (e : (Nat × Nat) × OutSubject) : Option ((Nat × Nat) × Nat) :=
  if e.2.globalSubject = none then none else e.2.teacher.map fun t => (e.1, t)

/-- The (slot, classroom) occupancy of one lesson entry, if any. -/
def cKey (e : (Nat × Nat) × OutSubject) : Option ((Nat × Nat) × Nat) :=
  if e.2.globalSubject = none then none else e.2.classroom.map fun c => (e.1, c)

/-- All (weekday, period, teacher) occupancies of an individual, in scan order. -/
def teacherSlots (ind : Individual) : List ((Nat × Nat) × Nat) :=
  (lessonStream ind).filterMap tKey

/-- All (weekday, period, classroom) occupancies of an individual, in scan order. -/
def classroomSlots (ind : Individual) : List ((Nat × Nat) × Nat) :=
  (lessonStream ind).filterMap cKey

/-- The overlap fold charges exactly 1000 per repeated occupancy, teachers and
classrooms independently. -/
theorem overlap_foldl_eq :
    ∀ (l : List ((Nat × Nat) × OutSubject)) (st : OverlapSt),
      (l.foldl overlapVisit st).score
        = st.score + 1000 * ((dupCount st.tUsed (l.filterMap tKey) : Int)
            + (dupCount st.cUsed (l.filterMap cKey) : Int)) := by
  intro l
  induction l with
  | nil => intro st; simp [dupCount]
  | cons e l ih =>
    intro st
    obtain ⟨key, subj⟩ := e
    rw [List.foldl_cons]
    by_cases hgs : subj.globalSubject = none
    · have hv : overlapVisit st (key, subj) = st := by simp [overlapVisit, hgs]
      have hts : tKey (key, subj) = none := by simp [tKey, hgs]
      have hcs : cKey (key, subj) = none := by simp [cKey, hgs]
      rw [hv, List.filterMap_cons, List.filterMap_cons, hts, hcs, ih]
    · -- the teacher phase, then the classroom phase
      rcases ht : subj.teacher with _ | t <;> rcases hc : subj.classroom with _ | c
      · have hv : overlapVisit st (key, subj) = st := by
          simp [overlapVisit, hgs, ht, hc]
        have hts : tKey (key, subj) = none := by simp [tKey, hgs, ht]
        have hcs : cKey (key, subj) = none := by simp [cKey, hgs, hc]
        rw [hv, List.filterMap_cons, List.filterMap_cons, hts, hcs, ih]
      · have hts : tKey (key, subj) = none := by simp [tKey, hgs, ht]
        have hcs : cKey (key, subj) = some (key, c) := by simp [cKey, hgs, hc]
        by_cases hm : (key, c) ∈ st.cUsed
        · have hv : overlapVisit st (key, subj) = { st with score := st.score + 1000 } := by
            simp [overlapVisit, hgs, ht, hc, hm]
          rw [hv, List.filterMap_cons, List.filterMap_cons, hts, hcs, ih, dupCount,
            if_pos hm]
          push_cast
          ring
        · have hv : overlapVisit st (key, subj)
              = { st with cUsed := (key, c) :: st.cUsed } := by
            simp [overlapVisit, hgs, ht, hc, hm]
          rw [hv, List.filterMap_cons, List.filterMap_cons, hts, hcs, ih, dupCount,
            if_neg hm]
      · have hts : tKey (key, subj) = some (key, t) := by simp [tKey, hgs, ht]
        have hcs : cKey (key, subj) = none := by simp [cKey, hgs, hc]
        by_cases hm : (key, t) ∈ st.tUsed
        · have hv : overlapVisit st (key, subj) = { st with score := st.score + 1000 } := by
            simp [overlapVisit, hgs, ht, hc, hm]
          rw [hv, List.filterMap_cons, List.filterMap_cons, hts, hcs, ih, dupCount,
            if_pos hm]
          push_cast
          ring
        · have hv : overlapVisit st (key, subj)
              = { st with tUsed := (key, t) :: st.tUsed } := by
            simp [overlapVisit, hgs, ht, hc, hm]
          rw [hv, List.filterMap_cons, List.filterMap_cons, hts, hcs, ih, dupCount,
            if_neg hm]
      · have hts : tKey (key, subj) = some (key, t) := by simp [tKey, hgs, ht]
        have hcs : cKey (key, subj) = some (key, c) := by simp [cKey, hgs, hc]
        by_cases hmt : (key, t) ∈ st.tUsed <;> by_cases hmc : (key, c) ∈ st.cUsed
        · have hv : overlapVisit st (key, subj)
              = { st with score := st.score + 1000 + 1000 } := by
            simp [overlapVisit, hgs, ht, hc, hmt, hmc]
          rw [hv, List.filterMap_cons, List.filterMap_cons, hts, hcs, ih, dupCount,
            dupCount, if_pos hmt, if_pos hmc]
          push_cast
          ring
        · have hv : overlapVisit st (key, subj)
              = { st with score := st.score + 1000, cUsed := (key, c) :: st.cUsed } := by
            simp [overlapVisit, hgs, ht, hc, hmt, hmc]
          rw [hv, List.filterMap_cons, List.filterMap_cons, hts, hcs, ih, dupCount,
            dupCount, if_pos hmt, if_neg hmc]
          push_cast
          ring
        · have hv : overlapVisit st (key, subj)
              = { st with score := st.score + 1000, tUsed := (key, t) :: st.tUsed } := by
            simp [overlapVisit, hgs, ht, hc, hmt, hmc]
          rw [hv, List.filterMap_cons, List.filterMap_cons, hts, hcs, ih, dupCount,
            dupCount, if_neg hmt, if_pos hmc]
          push_cast
          ring
        · have hv : overlapVisit st (key, subj)
              = { st with tUsed := (key, t) :: st.tUsed, cUsed := (key, c) :: st.cUsed } := by
            simp [overlapVisit, hgs, ht, hc, hmt, hmc]
          rw [hv, List.filterMap_cons, List.filterMap_cons, hts, hcs, ih, dupCount,
            dupCount, if_neg hmt, if_neg hmc]

/-- `overlapScore` in closed form: 1000 per repeated teacher occupancy plus
1000 per repeated classroom occupancy. -/
theorem overlapScore_eq (ind : Individual) :
    overlapScore ind
      = 1000 * ((dupCount [] (teacherSlots ind) : Int)
          + (dupCount [] (classroomSlots ind) : Int)) := by
  unfold overlapScore teacherSlots classroomSlots
  rw [overlap_foldl_eq]
  simp

/-! ## Component lemmas for `fitness` -/

/-- The penalty of one remaining chunk (solver.go:235-239). -/
def chunkPenalty (c : SubjectChunk) : Int :=
  if 0 < c.size then (c.size : Int) * 500 else 0

theorem allocDivScore_eq (div : Division) (tt : Days) :
    allocDivScore div tt = ((remAfter div tt).map chunkPenalty).sum := by
  unfold allocDivScore
  have hfun : (fun (score : Int) (c : SubjectChunk) =>
      if 0 < c.size then score + (c.size : Int) * 500 else score)
      = fun score c => score + chunkPenalty c := by
    funext score c
    unfold chunkPenalty
    split <;> simp
  rw [hfun, foldl_add_eq]
  simp

theorem chunkPenalty_nonneg (c : SubjectChunk) : 0 ≤ chunkPenalty c := by
  unfold chunkPenalty
  split <;> positivity

theorem allocDivScore_nonneg (div : Division) (tt : Days) : 0 ≤ allocDivScore div tt := by
  rw [allocDivScore_eq]
  apply List.sum_nonneg
  intro x hx
  obtain ⟨c, _, rfl⟩ := List.mem_map.mp hx
  exact chunkPenalty_nonneg c

theorem allocScore_eq (input : InputData) (ind : Individual) :
    allocScore input ind
      = (input.divisions.enum.map
          fun p => allocDivScore p.2 (ind.timetables.getD p.1 emptyDays)).sum := by
  unfold allocScore
  rw [foldl_add_eq]
  simp

theorem allocScore_nonneg (input : InputData) (ind : Individual) :
    0 ≤ allocScore input ind := by
  rw [allocScore_eq]
  apply List.sum_nonneg
  intro x hx
  obtain ⟨p, _, rfl⟩ := List.mem_map.mp hx
  exact allocDivScore_nonneg _ _

theorem balanceContrib_nonneg (tt : Days) : 0 ≤ balanceContrib tt := by
  unfold balanceContrib
  split <;> positivity

theorem balanceScore_eq (ind : Individual) :
    balanceScore ind = (ind.timetables.map balanceContrib).sum := by
  unfold balanceScore
  rw [foldl_add_eq]
  simp

theorem balanceScore_nonneg (ind : Individual) : 0 ≤ balanceScore ind := by
  rw [balanceScore_eq]
  apply List.sum_nonneg
  intro x hx
  obtain ⟨tt, _, rfl⟩ := List.mem_map.mp hx
  exact balanceContrib_nonneg tt

theorem overlapScore_nonneg (ind : Individual) : 0 ≤ overlapScore ind := by
  rw [overlapScore_eq]
  positivity

theorem fitness_nonneg (input : InputData) (ind : Individual) : 0 ≤ fitness input ind := by
  unfold fitness
  have h1 := overlapScore_nonneg ind
  have h2 := allocScore_nonneg input ind
  have h3 := balanceScore_nonneg ind
  omega

/-! ## C2: non-negativity, and zero fitness for violation-free individuals -/

/-- No two placed lessons (across all divisions) share a weekday, period index
and teacher identity. -/
def NoTeacherConflict (ind : Individual) : Prop :=
  (teacherSlots ind).Nodup

instance (ind : Individual) : Decidable (NoTeacherConflict ind) := by
  unfold NoTeacherConflict; infer_instance

/-- No two placed lessons share a weekday, period index and classroom identity. -/
def NoClassroomConflict (ind : Individual) : Prop :=
  (classroomSlots ind).Nodup

instance (ind : Individual) : Decidable (NoClassroomConflict ind) := by
  unfold NoClassroomConflict; infer_instance

/-- Every required chunk of every division is fully credited by the placed
lessons (the remaining count computed by the allocation scan is zero). -/
def AllocationsMet (input : InputData) (ind : Individual) : Prop :=
  ∀ p ∈ input.divisions.enum, ∀ c ∈ remAfter p.2 (ind.timetables.getD p.1 emptyDays),
    c.size = 0

instance (input : InputData) (ind : Individual) : Decidable (AllocationsMet input ind) := by
  unfold AllocationsMet; infer_instance

/-- Every division's weekday period counts have spread at most 4. -/
def BalancedSpread (ind : Individual) : Prop :=
  ∀ tt ∈ ind.timetables, maxLoad tt - minLoad tt ≤ 4

instance (ind : Individual) : Decidable (BalancedSpread ind) := by
  unfold BalancedSpread; infer_instance

/-- C2.  `fitness` always returns a non-negative score, and an individual with
no teacher conflict, no classroom conflict, no unmet subject-hour allocation
and per-division weekday spread at most 4 scores exactly 0. -/
theorem fitness_nonneg_and_perfect_zero (input : InputData) (ind : Individual) :
    0 ≤ fitness input ind
      ∧ (NoTeacherConflict ind → NoClassroomConflict ind → AllocationsMet input ind →
          BalancedSpread ind → fitness input ind = 0) := by
  refine ⟨fitness_nonneg input ind, fun ht hc ha hb => ?_⟩
  have hov : overlapScore ind = 0 := by
    rw [overlapScore_eq, (dupCount_eq_zero_iff _).mpr ht, (dupCount_eq_zero_iff _).mpr hc]
    simp
  have hal : allocScore input ind = 0 := by
    rw [allocScore_eq]
    apply List.sum_eq_zero
    intro x hx
    obtain ⟨p, hp, rfl⟩ := List.mem_map.mp hx
    rw [allocDivScore_eq]
    apply List.sum_eq_zero
    intro y hy
    obtain ⟨c, hcm, rfl⟩ := List.mem_map.mp hy
    have := ha p hp c hcm
    unfold chunkPenalty
    simp [this]
  have hba : balanceScore ind = 0 := by
    rw [balanceScore_eq]
    apply List.sum_eq_zero
    intro x hx
    obtain ⟨tt, htt, rfl⟩ := List.mem_map.mp hx
    have := hb tt htt
    unfold balanceContrib
    rw [if_neg (by omega)]
  unfold fitness
  omega

/-! ## Concrete test fixtures (used by the closed witness theorems) -/

/-- A one-hour subject requirement taught by teacher 0, unconstrained classroom. -/
def subjA : Subject :=
  { globalSubject := some 0, allocation := [1, 0, 0, 0, 0], placement := 0,
    teacher := some 0, classrooms := [], group := 0 }

/-- A single-division, single-subject Problem Instance. -/
def inputA : InputData :=
  { globalSubjects := [0], classrooms := [], teachers := [0], divisions :=
      [{ name := "A", weight := 1, subjects := [subjA] }] }

/-- The one lesson the `inputA` requirement calls for. -/
def lessonA : OutSubject :=
  { globalSubject := some 0, teacher := some 0, classroom := none, group := some 0 }

/-- A hand-built perfect individual for `inputA`. -/
def indA : Individual :=
  { timetables := [⟨[[lessonA]], [], [], [], []⟩] }

/-- Witness for C2 at a concrete input: the hypotheses hold and the score is 0. -/
theorem fitness_nonneg_and_perfect_zero_witness :
    NoTeacherConflict indA ∧ NoClassroomConflict indA ∧ AllocationsMet inputA indA
      ∧ BalancedSpread indA ∧ 0 ≤ fitness inputA indA ∧ fitness inputA indA = 0 :=
  ⟨by decide, by decide, by decide, by decide,
    (fitness_nonneg_and_perfect_zero inputA indA).1,
    (fitness_nonneg_and_perfect_zero inputA indA).2 (by decide) (by decide) (by decide)
      (by decide)⟩

/-! ## Editing one lesson of an individual

The two edits the testable properties speak about: appending one new
single-lesson period to a weekday, and deleting one lesson entry from an
existing period. -/

/-- The zero value of `output.Subject` (an unused parallel slot). -/
def emptyLesson : OutSubject :=
  { globalSubject := none, teacher := none, classroom := none, group := none }

/-- The zero value of `input.Division`. -/
def emptyDivision : Division :=
  { name := "", weight := 0, subjects := [] }

/-- Append one single-lesson period holding `subj` at the end of weekday `day`
of division `dIdx`. -/
def addLesson (ind : Individual) (dIdx day : Nat) (subj : OutSubject) : Individual :=
  let tt := ind.timetables.getD dIdx emptyDays
  { timetables := ind.timetables.set dIdx (tt.setN day (tt.getN day ++ [[subj]])) }

/-- Delete lesson entry `k` of the period at `slot` of weekday `day` of
division `dIdx` (the period itself stays, so all other (day, slot) keys are
unchanged). -/
def removeLesson (ind : Individual) (dIdx day slot k : Nat) : Individual :=
  let tt := ind.timetables.getD dIdx emptyDays
  let dayList := tt.getN day
  let sg := dayList.getD slot []
  { timetables := ind.timetables.set dIdx (tt.setN day (dayList.set slot (sg.eraseIdx k))) }

/-! ## Stream factorizations -/

/-- The scan entries contributed by one weekday (at weekday index `i`). -/
def segAt (i : Nat) (l : Day) : List ((Nat × Nat) × OutSubject) :=
  (l.enum.map fun slotPair => slotPair.2.map fun subj => ((i, slotPair.1), subj)).flatten

/-- The scan entries contributed by one division timetable. -/
def divStream (tt : Days) : List ((Nat × Nat) × OutSubject) :=
  (tt.toList.enum.map fun dayPair =>
    (dayPair.2.enum.map fun slotPair =>
      slotPair.2.map fun subj => ((dayPair.1, slotPair.1), subj)).flatten).flatten

theorem lessonStream_eq_divStream (ind : Individual) :
    lessonStream ind = (ind.timetables.map divStream).flatten := rfl

theorem divStream_eq_segs (tt : Days) :
    divStream tt
      = segAt 0 tt.d0 ++ segAt 1 tt.d1 ++ segAt 2 tt.d2 ++ segAt 3 tt.d3 ++ segAt 4 tt.d4 := by
  obtain ⟨a, b, c, d, e⟩ := tt
  simp [divStream, segAt, Days5.toList, List.enum, List.enumFrom]

theorem segAt_append_single (i : Nat) (l : Day) (sg : SubjectsGroup) :
    segAt i (l ++ [sg]) = segAt i l ++ sg.map fun subj => ((i, l.length), subj) := by
  unfold segAt
  rw [List.enum_append]
  simp [List.enumFrom]

/-- The scan entries of the periods of `l` when the first period has index `n`. -/
def segFrom (i n : Nat) (l : Day) : List ((Nat × Nat) × OutSubject) :=
  ((l.enumFrom n).map fun slotPair => slotPair.2.map fun subj => ((i, slotPair.1), subj)).flatten

theorem segAt_eq_segFrom (i : Nat) (l : Day) : segAt i l = segFrom i 0 l := rfl

theorem segFrom_append (i n : Nat) (u v : Day) :
    segFrom i n (u ++ v) = segFrom i n u ++ segFrom i (n + u.length) v := by
  unfold segFrom
  rw [List.enumFrom_append]
  simp

theorem segFrom_cons (i n : Nat) (x : SubjectsGroup) (v : Day) :
    segFrom i n (x :: v) = (x.map fun subj => ((i, n), subj)) ++ segFrom i (n + 1) v := by
  unfold segFrom
  simp [List.enumFrom]

/-- Replacing the period at an in-range `slot` replaces its segment entries in
place (all other periods keep their indices). -/
theorem segAt_set (i slot : Nat) (l : Day) (sg2 : SubjectsGroup) (hslot : slot < l.length) :
    ∃ pre post,
      segAt i l = pre ++ ((l.getD slot []).map fun subj => ((i, slot), subj)) ++ post
        ∧ segAt i (l.set slot sg2) = pre ++ (sg2.map fun subj => ((i, slot), subj)) ++ post := by
  have hget : l.getD slot [] = l[slot] := List.getD_eq_getElem l [] hslot
  have hsplit : l = l.take slot ++ l[slot] :: l.drop (slot + 1) := by
    conv_lhs => rw [← List.take_append_drop slot l]
    rw [List.drop_eq_getElem_cons hslot]
  have hset : l.set slot sg2 = l.take slot ++ sg2 :: l.drop (slot + 1) :=
    List.set_eq_take_cons_drop sg2 hslot
  have hlen : (l.take slot).length = slot := List.length_take_of_le (le_of_lt hslot)
  refine ⟨segFrom i 0 (l.take slot), segFrom i (slot + 1) (l.drop (slot + 1)), ?_, ?_⟩
  · conv_lhs => rw [segAt_eq_segFrom, hsplit]
    rw [segFrom_append, segFrom_cons, hlen, hget]
    simp [List.append_assoc]
  · conv_lhs => rw [segAt_eq_segFrom, hset]
    rw [segFrom_append, segFrom_cons, hlen]
    simp [List.append_assoc]

theorem divStream_appendDay (tt : Days) (day : Nat) (sg : SubjectsGroup) (hday : day < 5) :
    ∃ pre post,
      divStream tt = pre ++ post
        ∧ divStream (tt.setN day (tt.getN day ++ [sg]))
            = pre ++ (sg.map fun subj => ((day, (tt.getN day).length), subj)) ++ post := by
  obtain ⟨a, b, c, d, e⟩ := tt
  interval_cases day
  · exact ⟨segAt 0 a, segAt 1 b ++ segAt 2 c ++ segAt 3 d ++ segAt 4 e, by
      simp [divStream_eq_segs, List.append_assoc], by
      simp [divStream_eq_segs, Days5.setN, Days5.getN, segAt_append_single,
        List.append_assoc]⟩
  · exact ⟨segAt 0 a ++ segAt 1 b, segAt 2 c ++ segAt 3 d ++ segAt 4 e, by
      simp [divStream_eq_segs, List.append_assoc], by
      simp [divStream_eq_segs, Days5.setN, Days5.getN, segAt_append_single,
        List.append_assoc]⟩
  · exact ⟨segAt 0 a ++ segAt 1 b ++ segAt 2 c, segAt 3 d ++ segAt 4 e, by
      simp [divStream_eq_segs, List.append_assoc], by
      simp [divStream_eq_segs, Days5.setN, Days5.getN, segAt_append_single,
        List.append_assoc]⟩
  · exact ⟨segAt 0 a ++ segAt 1 b ++ segAt 2 c ++ segAt 3 d, segAt 4 e, by
      simp [divStream_eq_segs, List.append_assoc], by
      simp [divStream_eq_segs, Days5.setN, Days5.getN, segAt_append_single,
        List.append_assoc]⟩
  · exact ⟨segAt 0 a ++ segAt 1 b ++ segAt 2 c ++ segAt 3 d ++ segAt 4 e, [], by
      simp [divStream_eq_segs, List.append_assoc], by
      simp [divStream_eq_segs, Days5.setN, Days5.getN, segAt_append_single,
        List.append_assoc]⟩

theorem divStream_setSlot (tt : Days) (day slot : Nat) (sg2 : SubjectsGroup)
    (hday : day < 5) (hslot : slot < (tt.getN day).length) :
    ∃ pre post,
      divStream tt
          = pre ++ (((tt.getN day).getD slot []).map fun subj => ((day, slot), subj)) ++ post
        ∧ divStream (tt.setN day ((tt.getN day).set slot sg2))
            = pre ++ (sg2.map fun subj => ((day, slot), subj)) ++ post := by
  obtain ⟨a, b, c, d, e⟩ := tt
  interval_cases day
  · obtain ⟨preD, postD, h1, h2⟩ := segAt_set 0 slot a sg2 hslot
    exact ⟨preD, postD ++ (segAt 1 b ++ segAt 2 c ++ segAt 3 d ++ segAt 4 e), by
      simp only [divStream_eq_segs, Days5.getN] at h1 ⊢
      rw [h1]; simp [List.append_assoc], by
      simp only [divStream_eq_segs, Days5.setN, Days5.getN] at h2 ⊢
      rw [h2]; simp [List.append_assoc]⟩
  · obtain ⟨preD, postD, h1, h2⟩ := segAt_set 1 slot b sg2 hslot
    exact ⟨segAt 0 a ++ preD, postD ++ (segAt 2 c ++ segAt 3 d ++ segAt 4 e), by
      simp only [divStream_eq_segs, Days5.getN] at h1 ⊢
      rw [h1]; simp [List.append_assoc], by
      simp only [divStream_eq_segs, Days5.setN, Days5.getN] at h2 ⊢
      rw [h2]; simp [List.append_assoc]⟩
  · obtain ⟨preD, postD, h1, h2⟩ := segAt_set 2 slot c sg2 hslot
    exact ⟨segAt 0 a ++ segAt 1 b ++ preD, postD ++ (segAt 3 d ++ segAt 4 e), by
      simp only [divStream_eq_segs, Days5.getN] at h1 ⊢
      rw [h1]; simp [List.append_assoc], by
      simp only [divStream_eq_segs, Days5.setN, Days5.getN] at h2 ⊢
      rw [h2]; simp [List.append_assoc]⟩
  · obtain ⟨preD, postD, h1, h2⟩ := segAt_set 3 slot d sg2 hslot
    exact ⟨segAt 0 a ++ segAt 1 b ++ segAt 2 c ++ preD, postD ++ segAt 4 e, by
      simp only [divStream_eq_segs, Days5.getN] at h1 ⊢
      rw [h1]; simp [List.append_assoc], by
      simp only [divStream_eq_segs, Days5.setN, Days5.getN] at h2 ⊢
      rw [h2]; simp [List.append_assoc]⟩
  · obtain ⟨preD, postD, h1, h2⟩ := segAt_set 4 slot e sg2 hslot
    exact ⟨segAt 0 a ++ segAt 1 b ++ segAt 2 c ++ segAt 3 d ++ preD, postD, by
      simp only [divStream_eq_segs, Days5.getN] at h1 ⊢
      rw [h1]; simp [List.append_assoc], by
      simp only [divStream_eq_segs, Days5.setN, Days5.getN] at h2 ⊢
      rw [h2]; simp [List.append_assoc]⟩

theorem divisionLessons_eq (tt : Days) :
    divisionLessons tt
      = tt.d0.flatten ++ tt.d1.flatten ++ tt.d2.flatten ++ tt.d3.flatten ++ tt.d4.flatten := by
  obtain ⟨a, b, c, d, e⟩ := tt
  simp [divisionLessons, Days5.toList, List.append_assoc]

theorem flatten_set_mid (l : Day) (slot : Nat) (sg2 : SubjectsGroup) (hslot : slot < l.length) :
    ∃ pre post,
      l.flatten = pre ++ (l.getD slot []) ++ post
        ∧ (l.set slot sg2).flatten = pre ++ sg2 ++ post := by
  have hget : l.getD slot [] = l[slot] := List.getD_eq_getElem l [] hslot
  have hsplit : l = l.take slot ++ l[slot] :: l.drop (slot + 1) := by
    conv_lhs => rw [← List.take_append_drop slot l]
    rw [List.drop_eq_getElem_cons hslot]
  have hset : l.set slot sg2 = l.take slot ++ sg2 :: l.drop (slot + 1) :=
    List.set_eq_take_cons_drop sg2 hslot
  refine ⟨(l.take slot).flatten, (l.drop (slot + 1)).flatten, ?_, ?_⟩
  · rw [hget]
    conv_lhs => rw [hsplit]
    simp only [List.flatten_append, List.flatten_cons, List.append_assoc]
  · conv_lhs => rw [hset]
    simp only [List.flatten_append, List.flatten_cons, List.append_assoc]

theorem divisionLessons_appendDay (tt : Days) (day : Nat) (sg : SubjectsGroup) (hday : day < 5) :
    ∃ preL postL,
      divisionLessons tt = preL ++ postL
        ∧ divisionLessons (tt.setN day (tt.getN day ++ [sg])) = preL ++ sg ++ postL := by
  obtain ⟨a, b, c, d, e⟩ := tt
  interval_cases day
  · exact ⟨a.flatten, b.flatten ++ c.flatten ++ d.flatten ++ e.flatten, by
      simp [divisionLessons_eq, List.append_assoc], by
      simp [divisionLessons_eq, Days5.setN, Days5.getN, List.append_assoc]⟩
  · exact ⟨a.flatten ++ b.flatten, c.flatten ++ d.flatten ++ e.flatten, by
      simp [divisionLessons_eq, List.append_assoc], by
      simp [divisionLessons_eq, Days5.setN, Days5.getN, List.append_assoc]⟩
  · exact ⟨a.flatten ++ b.flatten ++ c.flatten, d.flatten ++ e.flatten, by
      simp [divisionLessons_eq, List.append_assoc], by
      simp [divisionLessons_eq, Days5.setN, Days5.getN, List.append_assoc]⟩
  · exact ⟨a.flatten ++ b.flatten ++ c.flatten ++ d.flatten, e.flatten, by
      simp [divisionLessons_eq, List.append_assoc], by
      simp [divisionLessons_eq, Days5.setN, Days5.getN, List.append_assoc]⟩
  · exact ⟨a.flatten ++ b.flatten ++ c.flatten ++ d.flatten ++ e.flatten, [], by
      simp [divisionLessons_eq, List.append_assoc], by
      simp [divisionLessons_eq, Days5.setN, Days5.getN, List.append_assoc]⟩

theorem divisionLessons_setSlot (tt : Days) (day slot : Nat) (sg2 : SubjectsGroup)
    (hday : day < 5) (hslot : slot < (tt.getN day).length) :
    ∃ preL postL,
      divisionLessons tt = preL ++ ((tt.getN day).getD slot []) ++ postL
        ∧ divisionLessons (tt.setN day ((tt.getN day).set slot sg2)) = preL ++ sg2 ++ postL := by
  obtain ⟨a, b, c, d, e⟩ := tt
  interval_cases day
  · obtain ⟨preD, postD, h1, h2⟩ := flatten_set_mid a slot sg2 hslot
    exact ⟨preD, postD ++ (b.flatten ++ c.flatten ++ d.flatten ++ e.flatten), by
      simp only [divisionLessons_eq, Days5.getN] at h1 ⊢
      rw [h1]; simp [List.append_assoc], by
      simp only [divisionLessons_eq, Days5.setN, Days5.getN] at h2 ⊢
      rw [h2]; simp [List.append_assoc]⟩
  · obtain ⟨preD, postD, h1, h2⟩ := flatten_set_mid b slot sg2 hslot
    exact ⟨a.flatten ++ preD, postD ++ (c.flatten ++ d.flatten ++ e.flatten), by
      simp only [divisionLessons_eq, Days5.getN] at h1 ⊢
      rw [h1]; simp [List.append_assoc], by
      simp only [divisionLessons_eq, Days5.setN, Days5.getN] at h2 ⊢
      rw [h2]; simp [List.append_assoc]⟩
  · obtain ⟨preD, postD, h1, h2⟩ := flatten_set_mid c slot sg2 hslot
    exact ⟨a.flatten ++ b.flatten ++ preD, postD ++ (d.flatten ++ e.flatten), by
      simp only [divisionLessons_eq, Days5.getN] at h1 ⊢
      rw [h1]; simp [List.append_assoc], by
      simp only [divisionLessons_eq, Days5.setN, Days5.getN] at h2 ⊢
      rw [h2]; simp [List.append_assoc]⟩
  · obtain ⟨preD, postD, h1, h2⟩ := flatten_set_mid d slot sg2 hslot
    exact ⟨a.flatten ++ b.flatten ++ c.flatten ++ preD, postD ++ e.flatten, by
      simp only [divisionLessons_eq, Days5.getN] at h1 ⊢
      rw [h1]; simp [List.append_assoc], by
      simp only [divisionLessons_eq, Days5.setN, Days5.getN] at h2 ⊢
      rw [h2]; simp [List.append_assoc]⟩
  · obtain ⟨preD, postD, h1, h2⟩ := flatten_set_mid e slot sg2 hslot
    exact ⟨a.flatten ++ b.flatten ++ c.flatten ++ d.flatten ++ preD, postD, by
      simp only [divisionLessons_eq, Days5.getN] at h1 ⊢
      rw [h1]; simp [List.append_assoc], by
      simp only [divisionLessons_eq, Days5.setN, Days5.getN] at h2 ⊢
      rw [h2]; simp [List.append_assoc]⟩

theorem timetables_split (ind : Individual) (dIdx : Nat) (hd : dIdx < ind.timetables.length) :
    ind.timetables
      = ind.timetables.take dIdx
          ++ (ind.timetables.getD dIdx emptyDays) :: ind.timetables.drop (dIdx + 1) := by
  rw [List.getD_eq_getElem ind.timetables emptyDays hd]
  conv_lhs => rw [← List.take_append_drop dIdx ind.timetables]
  rw [List.drop_eq_getElem_cons hd]

theorem lessonStream_set_timetable (ind : Individual) (dIdx : Nat) (tt2 : Days)
    (hd : dIdx < ind.timetables.length) :
    lessonStream ind
        = ((ind.timetables.take dIdx).map divStream).flatten
            ++ divStream (ind.timetables.getD dIdx emptyDays)
            ++ ((ind.timetables.drop (dIdx + 1)).map divStream).flatten
      ∧ lessonStream { timetables := ind.timetables.set dIdx tt2 }
          = ((ind.timetables.take dIdx).map divStream).flatten
              ++ divStream tt2
              ++ ((ind.timetables.drop (dIdx + 1)).map divStream).flatten := by
  constructor
  · conv_lhs => rw [lessonStream_eq_divStream, timetables_split ind dIdx hd]
    simp only [List.map_append, List.map_cons, List.flatten_append, List.flatten_cons,
      List.append_assoc]
  · rw [lessonStream_eq_divStream]
    have hset : ind.timetables.set dIdx tt2
        = ind.timetables.take dIdx ++ tt2 :: ind.timetables.drop (dIdx + 1) :=
      List.set_eq_take_cons_drop tt2 hd
    rw [hset]
    simp only [List.map_append, List.map_cons, List.flatten_append, List.flatten_cons,
      List.append_assoc]

/-! ## Generic list splitting and `getD`/`set` helpers -/

theorem list_getD_split {α : Type} (l : List α) (n : Nat) (d : α) (h : n < l.length) :
    l = l.take n ++ l.getD n d :: l.drop (n + 1) := by
  rw [List.getD_eq_getElem l d h]
  conv_lhs => rw [← List.take_append_drop n l]
  rw [List.drop_eq_getElem_cons h]

theorem getD_set_ne {α : Type} (l : List α) (i j : Nat) (a d : α) (h : i ≠ j) :
    (l.set i a).getD j d = l.getD j d := by
  simp [List.getD_eq_getElem?_getD, List.getElem?_set_ne h]

theorem getD_set_self {α : Type} (l : List α) (i : Nat) (a d : α) (h : i < l.length) :
    (l.set i a).getD i d = a := by
  simp [List.getD_eq_getElem?_getD, List.getElem?_set_self, h]

/-! ## The allocation scan: steps, commutation, monotonicity -/

/-- The per-chunk update applied by one placed lesson (solver.go:221-229). -/
def gDec (subj : OutSubject) (c : SubjectChunk) : SubjectChunk :=
  if chunkMatches c subj then
    if 0 < c.size then { c with size := c.size - 1 } else c
  else c

theorem decLesson_eq_map (subj : OutSubject) (r : List SubjectChunk) :
    decLesson subj r = r.map (gDec subj) := rfl

/-- One step of the allocation scan over the division's lessons
(solver.go:216-231). -/
def allocStep (remaining : List SubjectChunk) (subj : OutSubject) : List SubjectChunk :=
  if subj.globalSubject = none then remaining else decLesson subj remaining

theorem remAfter_eq_foldl (div : Division) (tt : Days) :
    remAfter div tt = (divisionLessons tt).foldl allocStep (extractSubjectChunks div) := rfl

theorem gDec_subj (subj : OutSubject) (c : SubjectChunk) : (gDec subj c).subj = c.subj := by
  unfold gDec
  split_ifs <;> rfl

theorem gDec_size_le (subj : OutSubject) (c : SubjectChunk) : (gDec subj c).size ≤ c.size := by
  unfold gDec
  split_ifs <;> simp

theorem chunkMatches_of_subj_eq {c1 c2 : SubjectChunk} (x : OutSubject)
    (h : c1.subj = c2.subj) : chunkMatches c1 x ↔ chunkMatches c2 x := by
  unfold chunkMatches
  rw [h]

theorem gDec_comm (a b : OutSubject) (c : SubjectChunk) :
    gDec a (gDec b c) = gDec b (gDec a c) := by
  obtain ⟨cs, n⟩ := c
  have hma : ∀ m : Nat, chunkMatches ⟨cs, m⟩ a ↔ chunkMatches ⟨cs, n⟩ a := by
    intro m; exact chunkMatches_of_subj_eq a rfl
  have hmb : ∀ m : Nat, chunkMatches ⟨cs, m⟩ b ↔ chunkMatches ⟨cs, n⟩ b := by
    intro m; exact chunkMatches_of_subj_eq b rfl
  by_cases ha : chunkMatches ⟨cs, n⟩ a <;> by_cases hb : chunkMatches ⟨cs, n⟩ b <;>
    simp only [gDec] <;>
    split_ifs <;>
    simp_all [SubjectChunk.mk.injEq]

theorem decLesson_comm (a b : OutSubject) (r : List SubjectChunk) :
    decLesson a (decLesson b r) = decLesson b (decLesson a r) := by
  rw [decLesson_eq_map, decLesson_eq_map, decLesson_eq_map, decLesson_eq_map,
    List.map_map, List.map_map]
  exact List.map_eq_map_iff.mpr fun c _ => by simp [Function.comp, gDec_comm]

theorem allocStep_comm (r : List SubjectChunk) (s1 s2 : OutSubject) :
    allocStep (allocStep r s1) s2 = allocStep (allocStep r s2) s1 := by
  unfold allocStep
  split_ifs <;> first | rfl | exact decLesson_comm s2 s1 r

theorem foldl_allocStep_swap :
    ∀ (l : List OutSubject) (r : List SubjectChunk) (s : OutSubject),
      l.foldl allocStep (allocStep r s) = allocStep (l.foldl allocStep r) s := by
  intro l
  induction l with
  | nil => intro r s; rfl
  | cons x xs ih =>
    intro r s
    rw [List.foldl_cons, List.foldl_cons, allocStep_comm, ih]

/-- Pointwise domination of remaining-chunk lists: same subjects, sizes below. -/
def chunksLE : List SubjectChunk → List SubjectChunk → Prop :=
  List.Forall₂ fun a b => a.subj = b.subj ∧ a.size ≤ b.size

theorem chunksLE_refl (r : List SubjectChunk) : chunksLE r r := by
  induction r with
  | nil => exact List.Forall₂.nil
  | cons c cs ih => exact List.Forall₂.cons ⟨rfl, le_refl _⟩ ih

theorem decLesson_chunksLE (subj : OutSubject) :
    ∀ {r1 r2 : List SubjectChunk}, chunksLE r1 r2 →
      chunksLE (decLesson subj r1) (decLesson subj r2) := by
  intro r1 r2 h
  rw [decLesson_eq_map, decLesson_eq_map]
  induction h with
  | nil => exact List.Forall₂.nil
  | @cons a b l1 l2 hab htail ih =>
    rw [List.map_cons, List.map_cons]
    refine List.Forall₂.cons ⟨?_, ?_⟩ ih
    · rw [gDec_subj, gDec_subj]; exact hab.1
    · have hiff := chunkMatches_of_subj_eq subj hab.1
      unfold gDec
      by_cases hm : chunkMatches b subj
      · rw [if_pos (hiff.mpr hm), if_pos hm]
        have := hab.2
        split_ifs <;> simp <;> omega
      · rw [if_neg (fun hc => hm (hiff.mp hc)), if_neg hm]
        exact hab.2

theorem decLesson_chunksLE_self (subj : OutSubject) (r : List SubjectChunk) :
    chunksLE (decLesson subj r) r := by
  induction r with
  | nil => exact List.Forall₂.nil
  | cons c cs ih => exact List.Forall₂.cons ⟨gDec_subj subj c, gDec_size_le subj c⟩ ih

theorem allocStep_chunksLE (s : OutSubject) {r1 r2 : List SubjectChunk}
    (h : chunksLE r1 r2) : chunksLE (allocStep r1 s) (allocStep r2 s) := by
  unfold allocStep
  split_ifs
  · exact h
  · exact decLesson_chunksLE s h

theorem allocStep_chunksLE_self (r : List SubjectChunk) (s : OutSubject) :
    chunksLE (allocStep r s) r := by
  unfold allocStep
  split_ifs
  · exact chunksLE_refl r
  · exact decLesson_chunksLE_self s r

theorem foldl_allocStep_chunksLE :
    ∀ (l : List OutSubject) {r1 r2 : List SubjectChunk}, chunksLE r1 r2 →
      chunksLE (l.foldl allocStep r1) (l.foldl allocStep r2) := by
  intro l
  induction l with
  | nil => intro r1 r2 h; exact h
  | cons x xs ih =>
    intro r1 r2 h
    rw [List.foldl_cons, List.foldl_cons]
    exact ih (allocStep_chunksLE x h)

theorem chunksLE_allZero :
    ∀ {r1 r2 : List SubjectChunk}, chunksLE r1 r2 → (∀ c ∈ r2, c.size = 0) →
      ∀ c ∈ r1, c.size = 0 := by
  intro r1 r2 h
  induction h with
  | nil => intro _ c hc; cases hc
  | @cons a b l1 l2 hab htail ih =>
    intro hz c hc
    rcases List.mem_cons.mp hc with rfl | hc2
    · have hb := hz b (List.mem_cons_self b l2)
      have := hab.2
      omega
    · exact ih (fun c2 hm => hz c2 (List.mem_cons_of_mem b hm)) c hc2

/-! ## Sums of non-negative lists -/

theorem sum_nonneg_all_zero :
    ∀ (l : List Int), (∀ x ∈ l, 0 ≤ x) → l.sum = 0 → ∀ x ∈ l, x = 0 := by
  intro l
  induction l with
  | nil => intro _ _ x hx; cases hx
  | cons y ys ih =>
    intro hpos hsum x hx
    have hy : 0 ≤ y := hpos y (List.mem_cons_self y ys)
    have hys : 0 ≤ ys.sum := List.sum_nonneg fun z hz => hpos z (List.mem_cons_of_mem y hz)
    rw [List.sum_cons] at hsum
    rcases List.mem_cons.mp hx with rfl | hx2
    · omega
    · exact ih (fun z hz => hpos z (List.mem_cons_of_mem y hz)) (by omega) x hx2

/-! ## Score changes under replacing one division timetable -/

theorem enum_map_sum_split {α : Type} (g : Nat × α → Int) (u v : List α) (m : α) :
    ((u ++ m :: v).enum.map g).sum
      = (u.enum.map g).sum + g (u.length, m) + ((v.enumFrom (u.length + 1)).map g).sum := by
  rw [List.enum_append]
  simp [List.enumFrom, List.sum_append, add_assoc]

theorem balanceScore_set (tts : List Days) (dIdx : Nat) (tt tt2 : Days)
    (htt : tts.getD dIdx emptyDays = tt) (hd : dIdx < tts.length) :
    balanceScore { timetables := tts.set dIdx tt2 }
      = balanceScore { timetables := tts } - balanceContrib tt + balanceContrib tt2 := by
  rw [balanceScore_eq, balanceScore_eq]
  have hsplit : tts = tts.take dIdx ++ tt :: tts.drop (dIdx + 1) := by
    rw [← htt]; exact list_getD_split _ _ _ hd
  have hset : tts.set dIdx tt2 = tts.take dIdx ++ tt2 :: tts.drop (dIdx + 1) :=
    List.set_eq_take_cons_drop tt2 hd
  show ((tts.set dIdx tt2).map balanceContrib).sum
    = (tts.map balanceContrib).sum - balanceContrib tt + balanceContrib tt2
  rw [hset]
  conv_rhs => rw [hsplit]
  simp only [List.map_append, List.map_cons, List.sum_append, List.sum_cons]
  ring

theorem allocScore_set (input : InputData) (tts : List Days) (dIdx : Nat) (tt tt2 : Days)
    (dv : Division) (hdv : input.divisions.getD dIdx emptyDivision = dv)
    (htt : tts.getD dIdx emptyDays = tt)
    (hdiv : dIdx < input.divisions.length) (hd : dIdx < tts.length) :
    allocScore input { timetables := tts.set dIdx tt2 }
      = allocScore input { timetables := tts } - allocDivScore dv tt + allocDivScore dv tt2 := by
  rw [allocScore_eq, allocScore_eq]
  have hsplit : input.divisions
      = input.divisions.take dIdx ++ dv :: input.divisions.drop (dIdx + 1) := by
    rw [← hdv]; exact list_getD_split _ _ _ hdiv
  have hulen : (input.divisions.take dIdx).length = dIdx :=
    List.length_take_of_le (le_of_lt hdiv)
  rw [hsplit, enum_map_sum_split, enum_map_sum_split, hulen]
  have hu : ((input.divisions.take dIdx).enum.map fun p =>
        allocDivScore p.2
          (({ timetables := tts.set dIdx tt2 } : Individual).timetables.getD p.1 emptyDays)).sum
      = ((input.divisions.take dIdx).enum.map fun p =>
          allocDivScore p.2
            (({ timetables := tts } : Individual).timetables.getD p.1 emptyDays)).sum := by
    refine congrArg List.sum (List.map_eq_map_iff.mpr fun p hp => ?_)
    have hlt : p.1 < dIdx := by
      have := List.fst_lt_of_mem_enum hp
      omega
    simp only
    rw [getD_set_ne tts dIdx p.1 tt2 emptyDays (by omega)]
  have hv : (((input.divisions.drop (dIdx + 1)).enumFrom (dIdx + 1)).map fun p =>
        allocDivScore p.2
          (({ timetables := tts.set dIdx tt2 } : Individual).timetables.getD p.1 emptyDays)).sum
      = (((input.divisions.drop (dIdx + 1)).enumFrom (dIdx + 1)).map fun p =>
          allocDivScore p.2
            (({ timetables := tts } : Individual).timetables.getD p.1 emptyDays)).sum := by
    refine congrArg List.sum (List.map_eq_map_iff.mpr fun p hp => ?_)
    have hgt : dIdx + 1 ≤ p.1 := List.le_fst_of_mem_enumFrom hp
    simp only
    rw [getD_set_ne tts dIdx p.1 tt2 emptyDays (by omega)]
  have hmid : ({ timetables := tts.set dIdx tt2 } : Individual).timetables.getD dIdx emptyDays
      = tt2 := getD_set_self tts dIdx tt2 emptyDays hd
  have hmid2 : ({ timetables := tts } : Individual).timetables.getD dIdx emptyDays = tt := htt
  rw [hu, hv]
  simp only [hmid, hmid2]
  ring

/-! ## Decomposing a zero fitness -/

theorem fitness_zero_parts (input : InputData) (ind : Individual)
    (h : fitness input ind = 0) :
    overlapScore ind = 0 ∧ allocScore input ind = 0 ∧ balanceScore ind = 0 := by
  have h1 := overlapScore_nonneg ind
  have h2 := allocScore_nonneg input ind
  have h3 := balanceScore_nonneg ind
  unfold fitness at h
  omega

theorem overlapScore_zero_iff (ind : Individual) :
    overlapScore ind = 0 ↔ (teacherSlots ind).Nodup ∧ (classroomSlots ind).Nodup := by
  rw [overlapScore_eq]
  rw [← dupCount_eq_zero_iff (teacherSlots ind), ← dupCount_eq_zero_iff (classroomSlots ind)]
  omega

theorem allocScore_zero_allZero (input : InputData) (ind : Individual)
    (h : allocScore input ind = 0) :
    ∀ p ∈ input.divisions.enum, ∀ c ∈ remAfter p.2 (ind.timetables.getD p.1 emptyDays),
      c.size = 0 := by
  intro p hp c hc
  rw [allocScore_eq] at h
  have hterm : allocDivScore p.2 (ind.timetables.getD p.1 emptyDays) = 0 := by
    refine sum_nonneg_all_zero _ (fun x hx => ?_) h _ (List.mem_map_of_mem _ hp)
    obtain ⟨q, _, rfl⟩ := List.mem_map.mp hx
    exact allocDivScore_nonneg _ _
  rw [allocDivScore_eq] at hterm
  have hpen : chunkPenalty c = 0 := by
    refine sum_nonneg_all_zero _ (fun x hx => ?_) hterm _ (List.mem_map_of_mem _ hc)
    obtain ⟨q, _, rfl⟩ := List.mem_map.mp hx
    exact chunkPenalty_nonneg _
  unfold chunkPenalty at hpen
  by_cases hs : 0 < c.size
  · rw [if_pos hs] at hpen
    omega
  · omega

theorem balanceScore_zero_contribs (ind : Individual) (h : balanceScore ind = 0) :
    ∀ tt ∈ ind.timetables, balanceContrib tt = 0 := by
  intro tt htt
  rw [balanceScore_eq] at h
  refine sum_nonneg_all_zero _ (fun x hx => ?_) h _ (List.mem_map_of_mem _ htt)
  obtain ⟨q, _, rfl⟩ := List.mem_map.mp hx
  exact balanceContrib_nonneg _

/-! ## C4: a duplicate teacher occupancy costs exactly 1000 -/

theorem tKey_some (key : Nat × Nat) (subj : OutSubject) (t : Nat)
    (hgs : subj.globalSubject ≠ none) (ht : subj.teacher = some t) :
    tKey (key, subj) = some (key, t) := by
  unfold tKey
  rw [if_neg hgs, ht]
  rfl

theorem cKey_none (key : Nat × Nat) (subj : OutSubject) (hc : subj.classroom = none) :
    cKey (key, subj) = none := by
  unfold cKey
  split_ifs
  · rfl
  · rw [hc]; rfl

theorem cKey_some (key : Nat × Nat) (subj : OutSubject) (c : Nat)
    (hgs : subj.globalSubject ≠ none) (hc : subj.classroom = some c) :
    cKey (key, subj) = some (key, c) := by
  unfold cKey
  rw [if_neg hgs, hc]
  rfl

/-- C4 (amended).  Appending to an otherwise-perfect individual one lesson that
repeats a teacher occupancy at its (weekday, period) key — while not repeating
any classroom occupancy there and keeping the division's weekday spread within
4 — raises the fitness by exactly 1000. -/
theorem addLesson_dup_teacher_adds_1000
    (input : InputData) (ind : Individual) (dIdx day : Nat) (subj : OutSubject) (t : Nat)
    (hd : dIdx < ind.timetables.length) (hdiv : dIdx < input.divisions.length)
    (hday : day < 5)
    (hfit : fitness input ind = 0)
    (hgs : subj.globalSubject ≠ none)
    (ht : subj.teacher = some t)
    (hdup : ((day, ((ind.timetables.getD dIdx emptyDays).getN day).length), t)
        ∈ teacherSlots ind)
    (hcls : ∀ cr, subj.classroom = some cr →
        ((day, ((ind.timetables.getD dIdx emptyDays).getN day).length), cr)
          ∉ classroomSlots ind)
    (hspread : maxLoad ((addLesson ind dIdx day subj).timetables.getD dIdx emptyDays)
        - minLoad ((addLesson ind dIdx day subj).timetables.getD dIdx emptyDays) ≤ 4) :
    fitness input (addLesson ind dIdx day subj) = fitness input ind + 1000 := by
  obtain ⟨hov0, hal0, hba0⟩ := fitness_zero_parts input ind hfit
  obtain ⟨hndT, hndC⟩ := (overlapScore_zero_iff ind).mp hov0
  obtain ⟨tts⟩ := ind
  dsimp only at hd hdup hcls hspread ⊢
  have haddeq : addLesson (Individual.mk tts) dIdx day subj
      = Individual.mk (tts.set dIdx ((tts.getD dIdx emptyDays).setN day
          ((tts.getD dIdx emptyDays).getN day ++ [[subj]]))) := rfl
  rw [haddeq] at hspread ⊢
  dsimp only at hspread
  rw [getD_set_self _ _ _ _ hd] at hspread
  -- stream factorizations
  obtain ⟨preD, postD, hpd1, hpd2⟩ :=
    divStream_appendDay (tts.getD dIdx emptyDays) day [subj] hday
  obtain ⟨hs1, hs2⟩ := lessonStream_set_timetable (Individual.mk tts) dIdx
    ((tts.getD dIdx emptyDays).setN day ((tts.getD dIdx emptyDays).getN day ++ [[subj]])) hd
  dsimp only at hs1 hs2
  rw [hpd1] at hs1
  rw [hpd2] at hs2
  simp only [List.map_cons, List.map_nil] at hs2
  generalize htt2E : (tts.getD dIdx emptyDays).setN day
      ((tts.getD dIdx emptyDays).getN day ++ [[subj]]) = tt2 at hspread hs2 ⊢
  -- the teacher occupancies gain exactly the one duplicated entry
  have hTorig : teacherSlots (Individual.mk tts)
      = (((tts.take dIdx).map divStream).flatten.filterMap tKey ++ preD.filterMap tKey)
          ++ (postD.filterMap tKey
            ++ ((tts.drop (dIdx + 1)).map divStream).flatten.filterMap tKey) := by
    unfold teacherSlots
    rw [hs1]
    simp [List.filterMap_append, List.append_assoc]
  have hTnew : teacherSlots (Individual.mk (tts.set dIdx tt2))
      = (((tts.take dIdx).map divStream).flatten.filterMap tKey ++ preD.filterMap tKey)
          ++ (((day, ((tts.getD dIdx emptyDays).getN day).length), t)
            :: (postD.filterMap tKey
              ++ ((tts.drop (dIdx + 1)).map divStream).flatten.filterMap tKey)) := by
    unfold teacherSlots
    rw [hs2]
    simp [List.filterMap_append, List.filterMap_cons,
      tKey_some _ subj t hgs ht, List.append_assoc]
  have hdupT : dupCount [] (teacherSlots (Individual.mk (tts.set dIdx tt2))) = 1 := by
    rw [hTnew]
    refine dupCount_middle_mem _ _ _ ?_ ?_
    · rw [hTorig] at hndT; exact hndT
    · rw [hTorig] at hdup; exact hdup
  -- the classroom occupancies stay duplicate-free
  have hdupC : dupCount [] (classroomSlots (Individual.mk (tts.set dIdx tt2))) = 0 := by
    rcases hcr : subj.classroom with _ | cr
    · have hCnew : classroomSlots (Individual.mk (tts.set dIdx tt2))
          = classroomSlots (Individual.mk tts) := by
        unfold classroomSlots
        rw [hs2, hs1]
        simp [List.filterMap_append, List.filterMap_cons, cKey_none _ subj hcr]
      rw [hCnew]
      exact (dupCount_eq_zero_iff _).mpr hndC
    · have hCorig : classroomSlots (Individual.mk tts)
          = (((tts.take dIdx).map divStream).flatten.filterMap cKey ++ preD.filterMap cKey)
              ++ (postD.filterMap cKey
                ++ ((tts.drop (dIdx + 1)).map divStream).flatten.filterMap cKey) := by
        unfold classroomSlots
        rw [hs1]
        simp [List.filterMap_append, List.append_assoc]
      have hCnew : classroomSlots (Individual.mk (tts.set dIdx tt2))
          = (((tts.take dIdx).map divStream).flatten.filterMap cKey ++ preD.filterMap cKey)
              ++ (((day, ((tts.getD dIdx emptyDays).getN day).length), cr)
                :: (postD.filterMap cKey
                  ++ ((tts.drop (dIdx + 1)).map divStream).flatten.filterMap cKey)) := by
        unfold classroomSlots
        rw [hs2]
        simp [List.filterMap_append, List.filterMap_cons,
          cKey_some _ subj cr hgs hcr, List.append_assoc]
      rw [hCnew]
      refine (dupCount_eq_zero_iff _).mpr ?_
      rw [List.nodup_middle]
      refine List.nodup_cons.mpr ⟨?_, by rw [hCorig] at hndC; exact hndC⟩
      have hnm := hcls cr hcr
      rw [hCorig] at hnm
      exact hnm
  -- overlap score of the extended individual
  have hov' : overlapScore (Individual.mk (tts.set dIdx tt2)) = 1000 := by
    rw [overlapScore_eq, hdupT, hdupC]
    norm_num
  -- allocation score stays zero
  have hmem : (dIdx, input.divisions.getD dIdx emptyDivision) ∈ input.divisions.enum := by
    have hl : dIdx < input.divisions.enum.length := by simpa using hdiv
    have hmem0 := List.getElem_mem hl
    rw [List.getElem_enum] at hmem0
    rwa [List.getD_eq_getElem input.divisions emptyDivision hdiv]
  have hz : ∀ c ∈ remAfter (input.divisions.getD dIdx emptyDivision)
      (tts.getD dIdx emptyDays), c.size = 0 := by
    have hres := allocScore_zero_allZero input (Individual.mk tts) hal0
      (dIdx, input.divisions.getD dIdx emptyDivision) hmem
    exact hres
  have hzero_of_allZero : ∀ (dv : Division) (td : Days),
      (∀ c ∈ remAfter dv td, c.size = 0) → allocDivScore dv td = 0 := by
    intro dv td hzz
    rw [allocDivScore_eq]
    refine List.sum_eq_zero fun x hx => ?_
    obtain ⟨c, hc, rfl⟩ := List.mem_map.mp hx
    unfold chunkPenalty
    rw [hzz c hc]
    rfl
  have halltt2 : ∀ c ∈ remAfter (input.divisions.getD dIdx emptyDivision) tt2,
      c.size = 0 := by
    obtain ⟨preL, postL, hl1, hl2⟩ :=
      divisionLessons_appendDay (tts.getD dIdx emptyDays) day [subj] hday
    rw [htt2E] at hl2
    intro c hc
    have hle : chunksLE
        (remAfter (input.divisions.getD dIdx emptyDivision) tt2)
        (remAfter (input.divisions.getD dIdx emptyDivision) (tts.getD dIdx emptyDays)) := by
      rw [remAfter_eq_foldl, remAfter_eq_foldl, hl1, hl2]
      rw [List.foldl_append, List.foldl_append, List.foldl_append]
      simp only [List.foldl_cons, List.foldl_nil]
      exact foldl_allocStep_chunksLE postL (allocStep_chunksLE_self _ subj)
    exact chunksLE_allZero hle hz c hc
  have hal' : allocScore input (Individual.mk (tts.set dIdx tt2)) = 0 := by
    rw [allocScore_set input tts dIdx (tts.getD dIdx emptyDays) tt2
      (input.divisions.getD dIdx emptyDivision) rfl rfl hdiv hd]
    rw [hzero_of_allZero _ _ hz, hzero_of_allZero _ _ halltt2, hal0]
    ring
  -- balance score stays zero
  have hba' : balanceScore (Individual.mk (tts.set dIdx tt2)) = 0 := by
    rw [balanceScore_set tts dIdx (tts.getD dIdx emptyDays) tt2 rfl hd]
    have hmemtt : tts.getD dIdx emptyDays ∈ tts := by
      rw [List.getD_eq_getElem tts emptyDays hd]
      exact List.getElem_mem hd
    have hcontrib := balanceScore_zero_contribs (Individual.mk tts) hba0
      (tts.getD dIdx emptyDays) hmemtt
    have hcontrib2 : balanceContrib tt2 = 0 := by
      unfold balanceContrib
      rw [if_neg (by omega)]
    rw [hba0, hcontrib, hcontrib2]
    ring
  unfold fitness
  rw [hov', hal', hba', hov0, hal0, hba0]
  norm_num

/-! ### C4 fixtures: two divisions, a duplicate-teacher addition -/

/-- Division 0's requirement: one hour of subject 0 with teacher 10. -/
def subjC00 : Subject :=
  { globalSubject := some 0, allocation := [1, 0, 0, 0, 0], placement := 0,
    teacher := some 10, classrooms := [], group := 0 }

/-- Division 1's first requirement: one hour of subject 1 with teacher 20. -/
def subjC10 : Subject :=
  { globalSubject := some 1, allocation := [1, 0, 0, 0, 0], placement := 0,
    teacher := some 20, classrooms := [], group := 0 }

/-- Division 1's second requirement: one hour of subject 2 with teacher 21. -/
def subjC11 : Subject :=
  { globalSubject := some 2, allocation := [1, 0, 0, 0, 0], placement := 0,
    teacher := some 21, classrooms := [], group := 0 }

/-- A two-division Problem Instance. -/
def inputC : InputData :=
  { globalSubjects := [0, 1, 2], classrooms := [7], teachers := [10, 20, 21],
    divisions :=
      [{ name := "C0", weight := 1, subjects := [subjC00] },
       { name := "C1", weight := 1, subjects := [subjC10, subjC11] }] }

/-- A perfect individual for `inputC`: division 0 places its hour at Monday
period 0; division 1 places its two hours at Monday periods 0 and 1. -/
def indC : Individual :=
  { timetables :=
      [⟨[[{ globalSubject := some 0, teacher := some 10, classroom := none, group := some 0 }]],
         [], [], [], []⟩,
       ⟨[[{ globalSubject := some 1, teacher := some 20, classroom := none, group := some 0 }],
          [{ globalSubject := some 2, teacher := some 21, classroom := none, group := some 0 }]],
         [], [], [], []⟩] }

/-- The added lesson of the C4 witness: teacher 21 again at Monday period 1,
no classroom. -/
def subjAddC : OutSubject :=
  { globalSubject := some 2, teacher := some 21, classroom := none, group := none }

/-- Witness for the amended C4 at a concrete input: the addition duplicates
teacher 21 at (Monday, period 1) and the score rises from 0 to exactly 1000. -/
theorem addLesson_dup_teacher_adds_1000_witness :
    fitness inputC indC = 0
      ∧ fitness inputC (addLesson indC 0 0 subjAddC) = fitness inputC indC + 1000 :=
  ⟨by decide,
    addLesson_dup_teacher_adds_1000 inputC indC 0 0 subjAddC 21
      (by decide) (by decide) (by decide) (by decide) (by decide) (by decide) (by decide)
      (by intro cr h; simp [subjAddC] at h) (by decide)⟩

/-- Like `indC` but division 1's second lesson also claims classroom 7. -/
def indD : Individual :=
  { timetables :=
      [⟨[[{ globalSubject := some 0, teacher := some 10, classroom := none, group := some 0 }]],
         [], [], [], []⟩,
       ⟨[[{ globalSubject := some 1, teacher := some 20, classroom := none, group := some 0 }],
          [{ globalSubject := some 2, teacher := some 21, classroom := some 7, group := some 0 }]],
         [], [], [], []⟩] }

/-- The added lesson of the C4 counterexample: it duplicates both teacher 21
and classroom 7 at (Monday, period 1). -/
def subjAddD : OutSubject :=
  { globalSubject := some 2, teacher := some 21, classroom := some 7, group := none }

/-- Counterexample to C4 as stated: `indD` is otherwise perfect (fitness 0) and
the added lesson makes teacher 21 appear twice at (Monday, period 1), yet the
fitness rises by 2000 (the lesson also duplicates a classroom occupancy), not
by exactly 1000. -/
theorem addLesson_dup_teacher_counterexample :
    fitness inputC indD = 0
      ∧ ((0, 1), 21) ∈ teacherSlots indD
      ∧ fitness inputC (addLesson indD 0 0 subjAddD) = 2000 := by
  refine ⟨by decide, by decide, by decide⟩

/-! ## C3: a missing hour of a uniquely-matched, exactly-met chunk costs 500 -/

/-- The allocation scan never changes the subjects of the remaining chunks. -/
theorem foldl_allocStep_map_subj :
    ∀ (l : List OutSubject) (r : List SubjectChunk),
      (l.foldl allocStep r).map SubjectChunk.subj = r.map SubjectChunk.subj := by
  intro l
  induction l with
  | nil => intro r; rfl
  | cons x xs ih =>
    intro r
    rw [List.foldl_cons, ih]
    unfold allocStep
    split_ifs
    · rfl
    · rw [decLesson_eq_map, List.map_map]
      exact List.map_eq_map_iff.mpr fun c _ => by simp [Function.comp, gDec_subj]

/-- How many remaining chunks match a lesson is determined by their subjects. -/
theorem countP_matches_eq (x : OutSubject) (r1 r2 : List SubjectChunk)
    (h : r1.map SubjectChunk.subj = r2.map SubjectChunk.subj) :
    r1.countP (fun c => decide (chunkMatches c x))
      = r2.countP (fun c => decide (chunkMatches c x)) := by
  have h1 : ∀ r : List SubjectChunk,
      r.countP (fun c => decide (chunkMatches c x))
        = (r.map SubjectChunk.subj).countP
            (fun s => decide (s.globalSubject = x.globalSubject ∧ s.teacher = x.teacher)) := by
    intro r
    rw [List.countP_map]
    rfl
  rw [h1, h1, h]

/-- A lesson that matches no remaining chunk leaves the scan state unchanged. -/
theorem decLesson_of_no_match (x : OutSubject) :
    ∀ (r : List SubjectChunk),
      r.countP (fun c => decide (chunkMatches c x)) = 0 → decLesson x r = r := by
  intro r
  induction r with
  | nil => intro _; rfl
  | cons c cs ih =>
    intro h0
    rw [List.countP_cons] at h0
    rw [decLesson_eq_map, List.map_cons, ← decLesson_eq_map]
    have hcm : ¬ chunkMatches c x := by
      intro hm
      simp [hm] at h0
    have hcs : cs.countP (fun c => decide (chunkMatches c x)) = 0 := by omega
    rw [ih hcs]
    unfold gDec
    rw [if_neg hcm]

/-- Crediting one lesson whose unique matching chunk has exactly one hour left
lowers the allocation penalty by exactly 500. -/
theorem decLesson_unique_one (x : OutSubject) :
    ∀ (r : List SubjectChunk),
      r.countP (fun c => decide (chunkMatches c x)) = 1 →
      (∀ c ∈ r, chunkMatches c x → c.size = 1) →
      ((decLesson x r).map chunkPenalty).sum = (r.map chunkPenalty).sum - 500 := by
  intro r
  induction r with
  | nil => intro h1; simp at h1
  | cons c cs ih =>
    intro h1 hsz
    rw [List.countP_cons] at h1
    rw [decLesson_eq_map, List.map_cons, ← decLesson_eq_map]
    by_cases hcm : chunkMatches c x
    · have hcs : cs.countP (fun c => decide (chunkMatches c x)) = 0 := by
        rw [decide_eq_true hcm, if_pos rfl] at h1
        omega
      have hsize : c.size = 1 := hsz c (List.mem_cons_self c cs) hcm
      rw [decLesson_of_no_match x cs hcs]
      have hg : gDec x c = { c with size := 0 } := by
        unfold gDec
        rw [if_pos hcm, if_pos (by omega)]
        simp [hsize]
      rw [List.map_cons, List.map_cons, List.sum_cons, List.sum_cons, hg]
      have hp1 : chunkPenalty { c with size := 0 } = 0 := by
        unfold chunkPenalty
        simp
      have hp2 : chunkPenalty c = 500 := by
        unfold chunkPenalty
        rw [if_pos (by omega), hsize]
        norm_num
      rw [hp1, hp2]
      ring
    · have hcs : cs.countP (fun c => decide (chunkMatches c x)) = 1 := by
        rw [decide_eq_false hcm, if_neg Bool.false_ne_true] at h1
        omega
      have hg : gDec x c = c := by
        unfold gDec
        rw [if_neg hcm]
      rw [List.map_cons, List.map_cons, List.sum_cons, List.sum_cons, hg,
        ih hcs (fun c2 hc2 hm2 => hsz c2 (List.mem_cons_of_mem c hc2) hm2)]
      ring

/-- `balanceContrib` only reads the five period counts. -/
theorem balanceContrib_congr_lengths (t1 t2 : Days)
    (h0 : t1.d0.length = t2.d0.length) (h1 : t1.d1.length = t2.d1.length)
    (h2 : t1.d2.length = t2.d2.length) (h3 : t1.d3.length = t2.d3.length)
    (h4 : t1.d4.length = t2.d4.length) : balanceContrib t1 = balanceContrib t2 := by
  unfold balanceContrib maxLoad minLoad
  rw [h0, h1, h2, h3, h4]

/-- Replacing one period inside a weekday never changes the day-balance
contribution (the period counts stay the same). -/
theorem balanceContrib_set_slot (tt : Days) (day slot : Nat) (sg2 : SubjectsGroup)
    (hday : day < 5) :
    balanceContrib (tt.setN day ((tt.getN day).set slot sg2)) = balanceContrib tt := by
  obtain ⟨a, b, c, d, e⟩ := tt
  interval_cases day <;>
    exact balanceContrib_congr_lengths _ _
      (by simp [Days5.setN, Days5.getN, List.length_set])
      (by simp [Days5.setN, Days5.getN, List.length_set])
      (by simp [Days5.setN, Days5.getN, List.length_set])
      (by simp [Days5.setN, Days5.getN, List.length_set])
      (by simp [Days5.setN, Days5.getN, List.length_set])

/-- C3 (amended).  Removing one placed lesson whose (subject, teacher) matches
exactly one required chunk of its division — from an individual without
teacher/classroom conflicts, when after the removal that chunk's computed
shortfall is exactly one hour — raises the fitness by exactly 500. -/
theorem removeLesson_exact_chunk_adds_500
    (input : InputData) (ind : Individual) (dIdx day slot k : Nat) (x : OutSubject)
    (hd : dIdx < ind.timetables.length) (hdiv : dIdx < input.divisions.length)
    (hday : day < 5)
    (hslot : slot < ((ind.timetables.getD dIdx emptyDays).getN day).length)
    (hk : k < (((ind.timetables.getD dIdx emptyDays).getN day).getD slot []).length)
    (hx : (((ind.timetables.getD dIdx emptyDays).getN day).getD slot []).getD k emptyLesson
        = x)
    (hndT : NoTeacherConflict ind) (hndC : NoClassroomConflict ind)
    (hgs : x.globalSubject ≠ none)
    (hcount : (extractSubjectChunks (input.divisions.getD dIdx emptyDivision)).countP
        (fun c => decide (chunkMatches c x)) = 1)
    (hone : ∀ c ∈ remAfter (input.divisions.getD dIdx emptyDivision)
        ((removeLesson ind dIdx day slot k).timetables.getD dIdx emptyDays),
        chunkMatches c x → c.size = 1) :
    fitness input (removeLesson ind dIdx day slot k) = fitness input ind + 500 := by
  obtain ⟨tts⟩ := ind
  dsimp only at hd hslot hk hx hone ⊢
  have hremeq : removeLesson (Individual.mk tts) dIdx day slot k
      = Individual.mk (tts.set dIdx ((tts.getD dIdx emptyDays).setN day
          (((tts.getD dIdx emptyDays).getN day).set slot
            ((((tts.getD dIdx emptyDays).getN day).getD slot []).eraseIdx k)))) := rfl
  rw [hremeq] at hone ⊢
  dsimp only at hone
  rw [getD_set_self _ _ _ _ hd] at hone
  -- factorizations of the changed division
  obtain ⟨preD, postD, hpd1, hpd2⟩ := divStream_setSlot (tts.getD dIdx emptyDays) day slot
    ((((tts.getD dIdx emptyDays).getN day).getD slot []).eraseIdx k) hday hslot
  obtain ⟨preL, postL, hl1, hl2⟩ := divisionLessons_setSlot (tts.getD dIdx emptyDays) day slot
    ((((tts.getD dIdx emptyDays).getN day).getD slot []).eraseIdx k) hday hslot
  obtain ⟨hs1, hs2⟩ := lessonStream_set_timetable (Individual.mk tts) dIdx
    ((tts.getD dIdx emptyDays).setN day
      (((tts.getD dIdx emptyDays).getN day).set slot
        ((((tts.getD dIdx emptyDays).getN day).getD slot []).eraseIdx k))) hd
  dsimp only at hs1 hs2
  rw [hpd1] at hs1
  rw [hpd2] at hs2
  generalize htt2E : (tts.getD dIdx emptyDays).setN day
      (((tts.getD dIdx emptyDays).getN day).set slot
        ((((tts.getD dIdx emptyDays).getN day).getD slot []).eraseIdx k)) = tt2
      at hone hs2 hl2 ⊢
  generalize hsgE : ((tts.getD dIdx emptyDays).getN day).getD slot [] = sg
      at hx hk hs1 hs2 hl1 hl2
  have hsgsplit : sg = sg.take k ++ x :: sg.drop (k + 1) := by
    rw [← hx]
    exact list_getD_split sg k emptyLesson hk
  have herase : sg.eraseIdx k = sg.take k ++ sg.drop (k + 1) :=
    List.eraseIdx_eq_take_drop_succ sg k
  -- the removed individual's scan stream is a sublist of the original's
  have hsub : List.Sublist
      (lessonStream (Individual.mk (tts.set dIdx tt2)))
      (lessonStream (Individual.mk tts)) := by
    rw [hs1, hs2, herase]
    conv_rhs => rw [hsgsplit]
    simp only [List.map_append, List.map_cons]
    refine List.Sublist.append ?_ (List.Sublist.refl _)
    refine List.Sublist.append (List.Sublist.refl _) ?_
    refine List.Sublist.append ?_ (List.Sublist.refl _)
    refine List.Sublist.append (List.Sublist.refl _) ?_
    refine List.Sublist.append (List.Sublist.refl _) ?_
    exact List.sublist_cons_self _ _
  have hndT2 : (teacherSlots (Individual.mk (tts.set dIdx tt2))).Nodup :=
    List.Nodup.sublist (List.Sublist.filterMap tKey hsub) hndT
  have hndC2 : (classroomSlots (Individual.mk (tts.set dIdx tt2))).Nodup :=
    List.Nodup.sublist (List.Sublist.filterMap cKey hsub) hndC
  have hov0 : overlapScore (Individual.mk tts) = 0 :=
    (overlapScore_zero_iff _).mpr ⟨hndT, hndC⟩
  have hov2 : overlapScore (Individual.mk (tts.set dIdx tt2)) = 0 :=
    (overlapScore_zero_iff _).mpr ⟨hndT2, hndC2⟩
  -- the allocation scans differ by one credit of the removed lesson
  have hlessons1 : divisionLessons (tts.getD dIdx emptyDays)
      = (preL ++ sg.take k) ++ x :: (sg.drop (k + 1) ++ postL) := by
    rw [hl1]
    conv_lhs => rw [hsgsplit]
    simp [List.append_assoc]
  have hlessons2 : divisionLessons tt2
      = (preL ++ sg.take k) ++ (sg.drop (k + 1) ++ postL) := by
    rw [hl2, herase]
    simp [List.append_assoc]
  have hrem1 : remAfter (input.divisions.getD dIdx emptyDivision) (tts.getD dIdx emptyDays)
      = decLesson x (remAfter (input.divisions.getD dIdx emptyDivision) tt2) := by
    rw [remAfter_eq_foldl, remAfter_eq_foldl, hlessons1, hlessons2]
    simp only [List.foldl_append, List.foldl_cons]
    rw [foldl_allocStep_swap, foldl_allocStep_swap]
    unfold allocStep
    rw [if_neg hgs]
  have hcount2 : (remAfter (input.divisions.getD dIdx emptyDivision) tt2).countP
      (fun c => decide (chunkMatches c x)) = 1 := by
    rw [← hcount]
    refine countP_matches_eq x _ _ ?_
    rw [remAfter_eq_foldl, foldl_allocStep_map_subj]
  have halloc : allocDivScore (input.divisions.getD dIdx emptyDivision)
        (tts.getD dIdx emptyDays)
      = allocDivScore (input.divisions.getD dIdx emptyDivision) tt2 - 500 := by
    rw [allocDivScore_eq, allocDivScore_eq, hrem1]
    exact decLesson_unique_one x _ hcount2 hone
  have hal2 : allocScore input (Individual.mk (tts.set dIdx tt2))
      = allocScore input (Individual.mk tts) + 500 := by
    rw [allocScore_set input tts dIdx (tts.getD dIdx emptyDays) tt2
      (input.divisions.getD dIdx emptyDivision) rfl rfl hdiv hd, halloc]
    ring
  -- the day-balance phase is unchanged (period counts are preserved)
  have hba2 : balanceScore (Individual.mk (tts.set dIdx tt2))
      = balanceScore (Individual.mk tts) := by
    rw [balanceScore_set tts dIdx (tts.getD dIdx emptyDays) tt2 rfl hd]
    have hcontrib : balanceContrib tt2 = balanceContrib (tts.getD dIdx emptyDays) := by
      rw [← htt2E, hsgE]
      exact balanceContrib_set_slot _ day slot _ hday
    rw [hcontrib]
    ring
  unfold fitness
  rw [hov0, hov2, hal2, hba2]
  ring

/-! ### C3 fixtures -/

/-- A two-hour requirement (one chunk of size 2) for subject 0, teacher 0. -/
def subjE : Subject :=
  { globalSubject := some 0, allocation := [2, 0, 0, 0, 0], placement := 0,
    teacher := some 0, classrooms := [], group := 0 }

/-- Single-division instance whose only subject needs one chunk of 2 hours. -/
def inputE : InputData :=
  { globalSubjects := [0], classrooms := [], teachers := [0], divisions :=
      [{ name := "E", weight := 1, subjects := [subjE] }] }

/-- An individual for `inputE` placing both hours on Monday. -/
def indE : Individual :=
  { timetables := [⟨[[lessonA], [lessonA]], [], [], [], []⟩] }

/-- Witness for the amended C3 at a concrete input: removing the second Monday
hour of the exactly-met two-hour chunk raises the score from 0 to exactly 500. -/
theorem removeLesson_exact_chunk_adds_500_witness :
    fitness inputE indE = 0
      ∧ fitness inputE (removeLesson indE 0 0 1 0) = fitness inputE indE + 500 :=
  ⟨by decide,
    removeLesson_exact_chunk_adds_500 inputE indE 0 0 1 0 lessonA
      (by decide) (by decide) (by decide) (by decide) (by decide) (by decide)
      (by decide) (by decide) (by decide) (by decide) (by decide)⟩

/-- A requirement with two chunks (2 and 2 hours) of the same subject+teacher. -/
def subjF : Subject :=
  { globalSubject := some 0, allocation := [2, 2, 0, 0, 0], placement := 0,
    teacher := some 0, classrooms := [], group := 0 }

/-- Single-division instance with two same-subject chunks. -/
def inputF : InputData :=
  { globalSubjects := [0], classrooms := [], teachers := [0], divisions :=
      [{ name := "F", weight := 1, subjects := [subjF] }] }

/-- An individual for `inputF` placing all four required hours on Monday. -/
def indF : Individual :=
  { timetables := [⟨[[lessonA], [lessonA], [lessonA], [lessonA]], [], [], [], []⟩] }

/-- Counterexample to C3 as stated: in `indF` every placed hour counts toward a
required chunk of its division (it matches both chunks of `subjF`), yet
removing one of them leaves the fitness at 0 instead of raising it by 500 —
the allocation scan credits one placed hour against every matching chunk, so
4 placed hours over-satisfy the two 2-hour chunks. -/
theorem removeLesson_counterexample :
    fitness inputF indF = 0
      ∧ 0 < (extractSubjectChunks (inputF.divisions.getD 0 emptyDivision)).countP
          (fun c => decide (chunkMatches c lessonA))
      ∧ fitness inputF (removeLesson indF 0 0 3 0) = fitness inputF indF + 0 := by
  refine ⟨by decide, by decide, by decide⟩

/-! ## C6: the Candidate Builder places exactly the required hours -/

/-- Number of placed lessons of a division timetable with a given subject and
teacher identity. -/
def countMatching (tt : Days) (gs t : Option Nat) : Nat :=
  (divisionLessons tt).countP fun s => decide (s.globalSubject = gs ∧ s.teacher = t)

/-- `pickLeastLoadedDay` returns an index below 5 whose weekday is no longer
than any other weekday. -/
theorem pickLeastLoadedDay_spec (days : Days) :
    pickLeastLoadedDay days < 5
      ∧ ∀ i, i < 5 → (days.getN (pickLeastLoadedDay days)).length ≤ (days.getN i).length := by
  unfold pickLeastLoadedDay pickStep
  split_ifs <;>
    refine ⟨by norm_num, ?_⟩ <;>
    · intro i hi
      interval_cases i <;> simp only [Days5.getN] at * <;> omega

theorem getN_setN_same {α : Type} (d : Days5 α) (i : Nat) (hi : i < 5) (x : α) :
    (d.setN i x).getN i = x := by
  interval_cases i <;> rfl

theorem getN_setN_ne {α : Type} (d : Days5 α) (i j : Nat) (hi : i < 5) (hj : j < 5)
    (hne : i ≠ j) (x : α) : (d.setN i x).getN j = d.getN j := by
  interval_cases i <;> interval_cases j <;> first | rfl | exact absurd rfl hne

/-- One appended period adds one matching lesson when the chunk's subject and
teacher match (the random classroom never affects the count). -/
theorem countMatching_append_one (days : Days) (dayIdx : Nat) (hday : dayIdx < 5)
    (sg : SubjectsGroup) (gs t : Option Nat) :
    countMatching (days.setN dayIdx (days.getN dayIdx ++ [sg])) gs t
      = countMatching days gs t
          + sg.countP (fun s => decide (s.globalSubject = gs ∧ s.teacher = t)) := by
  obtain ⟨preL, postL, hl1, hl2⟩ := divisionLessons_appendDay days dayIdx sg hday
  unfold countMatching
  rw [hl1, hl2]
  simp [List.countP_append]
  omega

/-- The per-period group built by the Candidate Builder has exactly one
matching lesson when its subject and teacher match (the classroom draw and the
two empty parallel slots never matter). -/
theorem countP_builder_group (gsv tv cr grp : Option Nat) (g : Nat) (t : Option Nat) :
    (([{ globalSubject := gsv, teacher := tv, classroom := cr, group := grp },
       { globalSubject := none, teacher := none, classroom := none, group := none },
       { globalSubject := none, teacher := none, classroom := none, group := none }] :
        SubjectsGroup).countP
      fun s => decide (s.globalSubject = some g ∧ s.teacher = t))
      = if gsv = some g ∧ tv = t then 1 else 0 := by
  by_cases h : gsv = some g ∧ tv = t
  · simp [List.countP_cons, h]
  · simp [List.countP_cons, h]

/-- `appendLessons` adds exactly `n` matching lessons when the subject does,
and none otherwise. -/
theorem appendLessons_countMatching (subj : Subject) (dayIdx : Nat) (hday : dayIdx < 5)
    (g : Nat) (t : Option Nat) :
    ∀ (n : Nat) (days : Days) (rng : Rng),
      countMatching (appendLessons subj dayIdx n days rng).1 (some g) t
        = countMatching days (some g) t
            + (if subj.globalSubject = some g ∧ subj.teacher = t then n else 0) := by
  intro n
  induction n with
  | zero => intro days rng; simp [appendLessons]
  | succ m ih =>
    intro days rng
    rw [appendLessons, ih, countMatching_append_one days dayIdx hday, countP_builder_group]
    by_cases hmt : subj.globalSubject = some g ∧ subj.teacher = t
    · rw [if_pos hmt, if_pos hmt, if_pos hmt]
      omega
    · rw [if_neg hmt, if_neg hmt, if_neg hmt]

/-- `placeChunk` adds exactly the chunk's size in matching lessons when the
chunk's subject and teacher match, and nothing otherwise. -/
theorem placeChunk_countMatching (days : Days) (chunk : SubjectChunk) (rng : Rng)
    (g : Nat) (t : Option Nat) :
    countMatching (placeChunk days chunk rng).1 (some g) t
      = countMatching days (some g) t
          + (if chunk.subj.globalSubject = some g ∧ chunk.subj.teacher = t
              then chunk.size else 0) := by
  unfold placeChunk
  exact appendLessons_countMatching chunk.subj (pickLeastLoadedDay days)
    (pickLeastLoadedDay_spec days).1 g t chunk.size days rng

/-- Folding chunk placements accumulates the matching sizes. -/
theorem foldl_placeChunk_countMatching (g : Nat) (t : Option Nat) :
    ∀ (chunks : List SubjectChunk) (acc : Days × Rng),
      countMatching (chunks.foldl (fun p chunk => placeChunk p.1 chunk p.2) acc).1 (some g) t
        = countMatching acc.1 (some g) t
            + (chunks.map fun c =>
                if c.subj.globalSubject = some g ∧ c.subj.teacher = t then c.size else 0).sum := by
  intro chunks
  induction chunks with
  | nil => intro acc; simp
  | cons c cs ih =>
    intro acc
    rw [List.foldl_cons, ih]
    simp only [List.map_cons, List.sum_cons]
    rw [placeChunk_countMatching]
    omega

/-- Dropping the zero entries of an allocation vector keeps its sum. -/
theorem filter_pos_sum : ∀ (l : List Nat), (l.filter fun a => decide (0 < a)).sum = l.sum := by
  intro l
  induction l with
  | nil => rfl
  | cons a as ih =>
    by_cases h : 0 < a
    · simp [List.filter_cons, h, ih]
    · have ha : a = 0 := by omega
      simp [List.filter_cons, h, ih, ha]

/-- The matching chunk sizes of a division sum to the matching subjects'
allocation totals. -/
theorem chunk_sizes_eq_subject_alloc (div : Division) (g : Nat) (t : Option Nat) :
    ((extractSubjectChunks div).map fun c =>
        if c.subj.globalSubject = some g ∧ c.subj.teacher = t then c.size else 0).sum
      = (div.subjects.map fun s =>
          if s.globalSubject = some g ∧ s.teacher = t then s.allocation.sum else 0).sum := by
  rw [extractSubjectChunks_eq_spec]
  unfold specSubjectChunks
  rw [List.map_flatten, List.sum_flatten, List.map_map, List.map_map]
  refine congrArg List.sum (List.map_eq_map_iff.mpr fun s _ => ?_)
  simp only [Function.comp, List.map_map]
  by_cases h : s.globalSubject = some g ∧ s.teacher = t
  · simp only [h, and_self, if_true, if_pos h]
    have hmap : ((s.allocation.filter fun a => decide (0 < a)).map
        ((fun c : SubjectChunk =>
          if c.subj.globalSubject = some g ∧ c.subj.teacher = t then c.size else 0)
            ∘ fun a => { subj := s, size := a })).sum
        = ((s.allocation.filter fun a => decide (0 < a)).map id).sum := by
      refine congrArg List.sum (List.map_eq_map_iff.mpr fun a _ => ?_)
      simp [Function.comp, h]
    rw [hmap, List.map_id, filter_pos_sum]
  · rw [if_neg h]
    refine List.sum_eq_zero fun x hx => ?_
    obtain ⟨a, _, rfl⟩ := List.mem_map.mp hx
    simp [Function.comp, h]

/-- The division timetables of `randomIndividual` are each built by
`buildDivision` on the corresponding division (from some intermediate
generator state). -/
theorem buildDivisions_getD :
    ∀ (divs : List Division) (rng : Rng) (dIdx : Nat), dIdx < divs.length →
      ∃ r : Rng, (buildDivisions divs rng).1.getD dIdx emptyDays
          = (buildDivision (divs.getD dIdx emptyDivision) r).1 := by
  intro divs
  induction divs with
  | nil => intro rng dIdx h; simp at h
  | cons d ds ih =>
    intro rng dIdx h
    match dIdx with
    | 0 => exact ⟨rng, by simp [buildDivisions]⟩
    | n + 1 =>
      obtain ⟨r, hr⟩ := ih (buildDivision d rng).2 n (by simpa using h)
      exact ⟨r, by simpa [buildDivisions] using hr⟩

/-- C6.  For every Problem Instance, random state and division, the individual
built by `randomIndividual` places, for each (subject, teacher) identity pair,
exactly the sum of the sizes of that pair's required chunks — equivalently,
exactly the sum of the matching subjects' allocation-vector entries (never
more, never fewer). -/
theorem randomIndividual_places_required
    (input : InputData) (rng : Rng) (dIdx : Nat) (g : Nat) (t : Option Nat)
    (hdiv : dIdx < input.divisions.length) :
    countMatching ((randomIndividual input rng).1.timetables.getD dIdx emptyDays) (some g) t
        = ((extractSubjectChunks (input.divisions.getD dIdx emptyDivision)).map fun c =>
            if c.subj.globalSubject = some g ∧ c.subj.teacher = t then c.size else 0).sum
      ∧ countMatching ((randomIndividual input rng).1.timetables.getD dIdx emptyDays) (some g) t
          = ((input.divisions.getD dIdx emptyDivision).subjects.map fun s =>
              if s.globalSubject = some g ∧ s.teacher = t then s.allocation.sum else 0).sum := by
  have hb : (randomIndividual input rng).1.timetables = (buildDivisions input.divisions rng).1 :=
    rfl
  obtain ⟨r, hr⟩ := buildDivisions_getD input.divisions rng dIdx hdiv
  have hcount : countMatching ((randomIndividual input rng).1.timetables.getD dIdx emptyDays)
      (some g) t
      = ((extractSubjectChunks (input.divisions.getD dIdx emptyDivision)).map fun c =>
          if c.subj.globalSubject = some g ∧ c.subj.teacher = t then c.size else 0).sum := by
    rw [hb, hr]
    unfold buildDivision
    rw [foldl_placeChunk_countMatching]
    have hempty : countMatching emptyDays (some g) t = 0 := rfl
    rw [hempty]
    omega
  exact ⟨hcount, by rw [hcount]; exact chunk_sizes_eq_subject_alloc _ g t⟩

/-- Witness for C6 at a concrete input: the builder places exactly the two
required hours of `inputE`'s single subject. -/
theorem randomIndividual_places_required_witness :
    (0 : Nat) < inputE.divisions.length
      ∧ countMatching ((randomIndividual inputE ⟨0⟩).1.timetables.getD 0 emptyDays)
          (some 0) (some 0)
          = ((inputE.divisions.getD 0 emptyDivision).subjects.map fun s =>
              if s.globalSubject = some 0 ∧ s.teacher = some 0 then s.allocation.sum
              else 0).sum :=
  ⟨by decide, (randomIndividual_places_required inputE ⟨0⟩ 0 0 (some 0) (by decide)).2⟩

/-! ## C10: the builder's greedy placement keeps weekdays balanced -/

/-- The largest required chunk size of a division (0 when it has no chunks). -/
def maxChunkSize (div : Division) : Nat :=
  ((extractSubjectChunks div).map SubjectChunk.size).foldr max 0

theorem le_foldr_max : ∀ (l : List Nat), ∀ x ∈ l, x ≤ l.foldr max 0 := by
  intro l
  induction l with
  | nil => intro x hx; cases hx
  | cons a as ih =>
    intro x hx
    rcases List.mem_cons.mp hx with rfl | hx2
    · rw [List.foldr_cons]
      omega
    · have hle := ih x hx2
      rw [List.foldr_cons]
      omega

theorem foldr_max_le : ∀ (l : List Nat) (b : Nat), (∀ x ∈ l, x ≤ b) → l.foldr max 0 ≤ b := by
  intro l
  induction l with
  | nil => intro b _; simp
  | cons a as ih =>
    intro b hb
    have ha := hb a (List.mem_cons_self a as)
    have has := ih b fun x hx => hb x (List.mem_cons_of_mem a hx)
    rw [List.foldr_cons]
    omega

/-- The weekday lengths after `appendLessons`: the chosen weekday grows by `n`,
all others stay. -/
theorem appendLessons_getN_length (subj : Subject) (dayIdx : Nat) (hday : dayIdx < 5) :
    ∀ (n : Nat) (days : Days) (rng : Rng) (j : Nat), j < 5 →
      ((appendLessons subj dayIdx n days rng).1.getN j).length
        = (days.getN j).length + (if j = dayIdx then n else 0) := by
  intro n
  induction n with
  | zero => intro days rng j hj; simp [appendLessons]
  | succ m ih =>
    intro days rng j hj
    rw [appendLessons, ih _ _ j hj]
    by_cases hjd : j = dayIdx
    · subst hjd
      rw [getN_setN_same _ _ hday]
      simp [List.length_append]
      omega
    · rw [getN_setN_ne _ _ _ hday hj (fun h => hjd h.symm)]
      rw [if_neg hjd, if_neg hjd]

set_option maxHeartbeats 2000000 in
/-- Placing one chunk on the least-loaded weekday keeps the weekday spread
within the largest chunk size placed so far. -/
theorem placeChunk_spread (days : Days) (chunk : SubjectChunk) (rng : Rng) (M : Nat)
    (hM : chunk.size ≤ M) (hsp : maxLoad days - minLoad days ≤ M) :
    maxLoad (placeChunk days chunk rng).1 - minLoad (placeChunk days chunk rng).1 ≤ M := by
  unfold placeChunk
  obtain ⟨hlt, hmin⟩ := pickLeastLoadedDay_spec days
  have hmaxeq : ∀ tt : Days, maxLoad tt
      = max (max (max (max (tt.getN 0).length (tt.getN 1).length)
          (tt.getN 2).length) (tt.getN 3).length) (tt.getN 4).length := fun tt => rfl
  have hmineq : ∀ tt : Days, minLoad tt
      = min (min (min (min (tt.getN 0).length (tt.getN 1).length)
          (tt.getN 2).length) (tt.getN 3).length) (tt.getN 4).length := fun tt => rfl
  have h0 := appendLessons_getN_length chunk.subj _ hlt chunk.size days rng 0 (by norm_num)
  have h1 := appendLessons_getN_length chunk.subj _ hlt chunk.size days rng 1 (by norm_num)
  have h2 := appendLessons_getN_length chunk.subj _ hlt chunk.size days rng 2 (by norm_num)
  have h3 := appendLessons_getN_length chunk.subj _ hlt chunk.size days rng 3 (by norm_num)
  have h4 := appendLessons_getN_length chunk.subj _ hlt chunk.size days rng 4 (by norm_num)
  have hm0 := hmin 0 (by norm_num)
  have hm1 := hmin 1 (by norm_num)
  have hm2 := hmin 2 (by norm_num)
  have hm3 := hmin 3 (by norm_num)
  have hm4 := hmin 4 (by norm_num)
  rw [hmaxeq, hmineq] at hsp ⊢
  interval_cases hpv : (pickLeastLoadedDay days) <;>
    · dsimp only at h0 h1 h2 h3 h4 ⊢
      norm_num at h0 h1 h2 h3 h4
      omega

/-- The chunk-placement fold keeps the weekday spread within the largest chunk
size. -/
theorem foldl_placeChunk_spread (M : Nat) :
    ∀ (chunks : List SubjectChunk) (acc : Days × Rng),
      (∀ c ∈ chunks, c.size ≤ M) → maxLoad acc.1 - minLoad acc.1 ≤ M →
      maxLoad (chunks.foldl (fun p chunk => placeChunk p.1 chunk p.2) acc).1
          - minLoad (chunks.foldl (fun p chunk => placeChunk p.1 chunk p.2) acc).1 ≤ M := by
  intro chunks
  induction chunks with
  | nil => intro acc _ h; exact h
  | cons c cs ih =>
    intro acc hsz hsp
    rw [List.foldl_cons]
    exact ih _ (fun c2 hc2 => hsz c2 (List.mem_cons_of_mem c hc2))
      (placeChunk_spread acc.1 c acc.2 M (hsz c (List.mem_cons_self c cs)) hsp)

/-- C10.  Every division timetable built by `randomIndividual` has weekday
spread at most the division's largest chunk size (0 when it has no chunks);
consequently, when all chunk sizes are at most 4, the freshly built division
never incurs the day-load-imbalance penalty. -/
theorem randomIndividual_day_spread
    (input : InputData) (rng : Rng) (dIdx : Nat) (hdiv : dIdx < input.divisions.length) :
    maxLoad ((randomIndividual input rng).1.timetables.getD dIdx emptyDays)
        - minLoad ((randomIndividual input rng).1.timetables.getD dIdx emptyDays)
      ≤ maxChunkSize (input.divisions.getD dIdx emptyDivision)
    ∧ ((∀ c ∈ extractSubjectChunks (input.divisions.getD dIdx emptyDivision), c.size ≤ 4) →
        balanceContrib ((randomIndividual input rng).1.timetables.getD dIdx emptyDays) = 0) := by
  have hb : (randomIndividual input rng).1.timetables = (buildDivisions input.divisions rng).1 :=
    rfl
  obtain ⟨r, hr⟩ := buildDivisions_getD input.divisions rng dIdx hdiv
  have hsp : maxLoad ((randomIndividual input rng).1.timetables.getD dIdx emptyDays)
      - minLoad ((randomIndividual input rng).1.timetables.getD dIdx emptyDays)
      ≤ maxChunkSize (input.divisions.getD dIdx emptyDivision) := by
    rw [hb, hr]
    unfold buildDivision
    refine foldl_placeChunk_spread _ _ _ (fun c hc => ?_) (by norm_num [maxLoad, minLoad, emptyDays])
    exact le_foldr_max _ _ (List.mem_map_of_mem SubjectChunk.size hc)
  refine ⟨hsp, fun hall => ?_⟩
  have hM : maxChunkSize (input.divisions.getD dIdx emptyDivision) ≤ 4 := by
    refine foldr_max_le _ 4 fun x hx => ?_
    obtain ⟨c, hc, rfl⟩ := List.mem_map.mp hx
    exact hall c hc
  unfold balanceContrib
  rw [if_neg (by omega)]

/-- Witness for C10 at a concrete input: the freshly built division for
`inputE` stays within its largest chunk size and incurs no balance penalty. -/
theorem randomIndividual_day_spread_witness :
    (0 : Nat) < inputE.divisions.length
      ∧ (∀ c ∈ extractSubjectChunks (inputE.divisions.getD 0 emptyDivision), c.size ≤ 4)
      ∧ maxLoad ((randomIndividual inputE ⟨0⟩).1.timetables.getD 0 emptyDays)
          - minLoad ((randomIndividual inputE ⟨0⟩).1.timetables.getD 0 emptyDays)
          ≤ maxChunkSize (inputE.divisions.getD 0 emptyDivision)
      ∧ balanceContrib ((randomIndividual inputE ⟨0⟩).1.timetables.getD 0 emptyDays) = 0 :=
  ⟨by decide, by decide,
    (randomIndividual_day_spread inputE ⟨0⟩ 0 (by decide)).1,
    (randomIndividual_day_spread inputE ⟨0⟩ 0 (by decide)).2 (by decide)⟩

/-! ## C1: the evolutionary loop never worsens the best-seen score -/

/-- The evaluation scan (solver.go:36-47) returns a best-seen individual whose
score is its fitness, no worse than the incoming best, and no worse than any
scanned individual (the scan may stop early only after reaching score 0, which
is a global minimum). -/
theorem evalLoop_spec (input : InputData) :
    ∀ (pop : List Individual) (best : Individual) (bestF : Int),
      bestF = fitness input best →
      (evalLoop input pop best bestF).2.2
          = fitness input (evalLoop input pop best bestF).2.1
        ∧ (evalLoop input pop best bestF).2.2 ≤ bestF
        ∧ ∀ ind ∈ pop, (evalLoop input pop best bestF).2.2 ≤ fitness input ind := by
  intro pop
  induction pop with
  | nil =>
    intro best bestF hb
    refine ⟨hb, le_refl _, fun ind hind => absurd hind (List.not_mem_nil ind)⟩
  | cons ind rest ih =>
    intro best bestF hb
    rw [evalLoop]
    by_cases hlt : fitness input ind < bestF
    · by_cases hzero : fitness input ind = 0
      · rw [if_pos hlt, if_pos hzero]
        refine ⟨rfl, le_of_lt hlt, fun ind2 hind2 => ?_⟩
        rw [hzero]
        exact fitness_nonneg input ind2
      · rw [if_pos hlt, if_neg hzero]
        obtain ⟨h1, h2, h3⟩ := ih ind (fitness input ind) rfl
        refine ⟨h1, le_trans h2 (le_of_lt hlt), fun ind2 hind2 => ?_⟩
        rcases List.mem_cons.mp hind2 with rfl | hmem
        · exact h2
        · exact h3 ind2 hmem
    · rw [if_neg hlt]
      obtain ⟨h1, h2, h3⟩ := ih best bestF hb
      refine ⟨h1, h2, fun ind2 hind2 => ?_⟩
      rcases List.mem_cons.mp hind2 with rfl | hmem
      · exact le_trans h2 (not_lt.mp hlt)
      · exact h3 ind2 hmem

/-- The generation loop (solver.go:31-73) never returns an individual whose
fitness is worse than the incoming best-seen score. -/
theorem genLoop_le (s : Solver) (input : InputData) :
    ∀ (g : Nat) (pop : List Individual) (best : Individual) (bestF : Int) (rng : Rng)
      (b : Individual) (r2 : Rng),
      bestF = fitness input best →
      genLoop s input g pop best bestF rng = some (b, r2) →
      fitness input b ≤ bestF := by
  intro g
  induction g with
  | zero =>
    intro pop best bestF rng b r2 hb heq
    rw [genLoop] at heq
    obtain ⟨h1, _⟩ := Prod.mk.injEq .. ▸ Option.some.inj heq
    rw [← h1, ← hb]
  | succ g ih =>
    intro pop best bestF rng b r2 hb heq
    rw [genLoop] at heq
    obtain ⟨he1, he2, _⟩ := evalLoop_spec input pop best bestF hb
    by_cases hz : (evalLoop input pop best bestF).2.2 = 0
    · rw [if_pos hz] at heq
      obtain ⟨h1, _⟩ := Prod.mk.injEq .. ▸ Option.some.inj heq
      rw [← h1, ← he1]
      exact he2
    · rw [if_neg hz] at heq
      by_cases hlen : s.populationSize / 2
          ≤ (sortByFitness (evalLoop input pop best bestF).1).length
      · rw [if_pos hlen] at heq
        dsimp only at heq
        rcases hrep : reproduceLoop s input (sortByFitness (evalLoop input pop best bestF).1)
            (s.populationSize - s.populationSize / 2)
            (((sortByFitness (evalLoop input pop best bestF).1).take
              (s.populationSize / 2)).map Prod.fst) rng with _ | p
        · rw [hrep] at heq
          cases heq
        · rw [hrep] at heq
          have := ih p.1 (evalLoop input pop best bestF).2.1
            (evalLoop input pop best bestF).2.2 p.2 b r2 he1 heq
          exact le_trans this he2
      · rw [if_neg hlen] at heq
        cases heq

/-- With at least one generation, the generation loop's result is no worse
than any member of the population it first evaluates. -/
theorem genLoop_le_pop (s : Solver) (input : InputData) (g : Nat) (pop : List Individual)
    (best : Individual) (bestF : Int) (rng : Rng) (b : Individual) (r2 : Rng)
    (hg : 1 ≤ g) (hb : bestF = fitness input best)
    (heq : genLoop s input g pop best bestF rng = some (b, r2)) :
    ∀ ind ∈ pop, fitness input b ≤ fitness input ind := by
  match g, hg with
  | g + 1, _ =>
    intro ind hind
    rw [genLoop] at heq
    obtain ⟨he1, he2, he3⟩ := evalLoop_spec input pop best bestF hb
    by_cases hz : (evalLoop input pop best bestF).2.2 = 0
    · rw [if_pos hz] at heq
      obtain ⟨h1, _⟩ := Prod.mk.injEq .. ▸ Option.some.inj heq
      rw [← h1, ← he1]
      exact he3 ind hind
    · rw [if_neg hz] at heq
      by_cases hlen : s.populationSize / 2
          ≤ (sortByFitness (evalLoop input pop best bestF).1).length
      · rw [if_pos hlen] at heq
        dsimp only at heq
        rcases hrep : reproduceLoop s input (sortByFitness (evalLoop input pop best bestF).1)
            (s.populationSize - s.populationSize / 2)
            (((sortByFitness (evalLoop input pop best bestF).1).take
              (s.populationSize / 2)).map Prod.fst) rng with _ | p
        · rw [hrep] at heq
          cases heq
        · rw [hrep] at heq
          have := genLoop_le s input g p.1 (evalLoop input pop best bestF).2.1
            (evalLoop input pop best bestF).2.2 p.2 b r2 he1 heq
          exact le_trans this (he3 ind hind)
      · rw [if_neg hlen] at heq
        cases heq

/-- C1.  Whenever `Solve` returns (population size at least 1), the emitted
individual's fitness is never worse than the score of `pop[0]` (the only
initial score observed when the generation budget is 0), and — as soon as at
least one generation runs, so that the whole initial population is evaluated —
never worse than the fitness of any individual of the initial population; in
particular, if some initial individual already scores 0, the emitted
individual scores exactly 0 (the loop stops at a best-seen score of 0 and
emits the best-seen individual). -/
theorem solve_never_worse_than_initial
    (s : Solver) (input : InputData) (seed : Nat) (out : OutputData)
    (_hpop : 1 ≤ s.populationSize)
    (hsol : s.solve input seed = some out) :
    (∀ ind0, (initPopulation s input ⟨seed⟩).1.head? = some ind0 →
        fitness input { timetables := out.divisionsTimetables } ≤ fitness input ind0)
      ∧ (1 ≤ s.generations →
          ∀ ind ∈ (initPopulation s input ⟨seed⟩).1,
            fitness input { timetables := out.divisionsTimetables } ≤ fitness input ind)
      ∧ (1 ≤ s.generations →
          (∃ ind ∈ (initPopulation s input ⟨seed⟩).1, fitness input ind = 0) →
          fitness input { timetables := out.divisionsTimetables } = 0) := by
  rw [Solver.solve] at hsol
  dsimp only at hsol
  rcases hpop0 : (initPopulation s input ⟨seed⟩).1 with _ | ⟨ind0, rest⟩
  · rw [hpop0] at hsol
    cases hsol
  · rw [hpop0] at hsol
    dsimp only at hsol
    rcases hgl : genLoop s input s.generations (ind0 :: rest) ind0 (fitness input ind0)
        (initPopulation s input ⟨seed⟩).2 with _ | ⟨best, rbest⟩
    · rw [hgl] at hsol
      cases hsol
    · rw [hgl] at hsol
      have hout : out = { divisionsTimetables := best.timetables } := (Option.some.inj hsol).symm
      have hfb : fitness input { timetables := out.divisionsTimetables } = fitness input best := by
        rw [hout]
      have hle0 : fitness input best ≤ fitness input ind0 :=
        genLoop_le s input s.generations (ind0 :: rest) ind0 (fitness input ind0)
          (initPopulation s input ⟨seed⟩).2 best rbest rfl hgl
      refine ⟨?_, ?_, ?_⟩
      · intro ind0h hh
        have : ind0h = ind0 := by
          rw [List.head?_cons] at hh
          exact (Option.some.inj hh).symm
        rw [this, hfb]
        exact hle0
      · intro hg ind hind
        rw [hfb]
        exact genLoop_le_pop s input s.generations (ind0 :: rest) ind0 (fitness input ind0)
          (initPopulation s input ⟨seed⟩).2 best rbest hg rfl hgl ind hind
      · intro hg hex
        obtain ⟨ind, hind, hzero⟩ := hex
        have h1 : fitness input { timetables := out.divisionsTimetables } ≤ fitness input ind := by
          rw [hfb]
          exact genLoop_le_pop s input s.generations (ind0 :: rest) ind0 (fitness input ind0)
            (initPopulation s input ⟨seed⟩).2 best rbest hg rfl hgl ind hind
        have h2 := fitness_nonneg input { timetables := out.divisionsTimetables }
        omega

/-! ### C1 fixtures -/

/-- The configuration of the concrete evolutionary-loop runs. -/
def sW : Solver := { populationSize := 2, generations := 1, mutationRate := 0 }

/-- The first (and, for this seed, every) individual `initializePopulation`
builds for `inputA`. -/
def indW : Individual :=
  { timetables := [⟨[[lessonA, emptyLesson, emptyLesson]], [], [], [], []⟩] }

/-- The output `Solve` produces on `inputA` (the builder's single lesson placed
at Monday period 0). -/
def outW : OutputData :=
  { divisionsTimetables := [⟨[[lessonA, emptyLesson, emptyLesson]], [], [], [], []⟩] }

/-- Witness for C1 at a concrete run: the solver returns and its output is no
worse than the first observed initial individual. -/
theorem solve_never_worse_than_initial_witness :
    1 ≤ sW.populationSize ∧ sW.solve inputA 0 = some outW
      ∧ fitness inputA { timetables := outW.divisionsTimetables } ≤ fitness inputA indW :=
  ⟨by decide, by decide,
    (solve_never_worse_than_initial sW inputA 0 outW (by decide) (by decide)).1 indW (by decide)⟩

/-! ## C9: determinism given the effective seed -/

/-- C9.  Two runs of `Solve` on the same Problem Instance with the same
configuration and the same effective random seed (the clock value Go's
`rand.Seed(time.Now().UnixNano())` happens to read) produce identical output:
all state of the run — population, best-seen individual and random source — is
threaded explicitly, so the result is a function of (configuration, instance,
seed) alone. -/
theorem solve_deterministic (s : Solver) (input : InputData) (seed1 seed2 : Nat)
    (h : seed1 = seed2) : s.solve input seed1 = s.solve input seed2 := by
  rw [h]

/-- Witness for C9 at a concrete run. -/
theorem solve_deterministic_witness :
    (0 : Nat) = 0 ∧ sW.solve inputA 0 = sW.solve inputA 0 :=
  ⟨rfl, solve_deterministic sW inputA 0 0 rfl⟩

/-! ## C8: populations smaller than 2 make `Solve` panic -/

/-- Configuration with a population of one individual. -/
def sPop1 : Solver := { populationSize := 1, generations := 1, mutationRate := 0 }

/-- Configuration with an empty population. -/
def sPop0 : Solver := { populationSize := 0, generations := 1, mutationRate := 0 }

/-- Two divisions that demand the same teacher for their single hour, so every
fresh individual scores 1000 (a teacher conflict at Monday period 0). -/
def inputG : InputData :=
  { globalSubjects := [0, 1], classrooms := [], teachers := [0], divisions :=
      [{ name := "G0", weight := 1, subjects :=
          [{ globalSubject := some 0, allocation := [1, 0, 0, 0, 0], placement := 0,
             teacher := some 0, classrooms := [], group := 0 }] },
       { name := "G1", weight := 1, subjects :=
          [{ globalSubject := some 1, allocation := [1, 0, 0, 0, 0], placement := 0,
             teacher := some 0, classrooms := [], group := 0 }] }] }

/-- C8 fails on the code: with `PopulationSize = 1` the reproduction step calls
`rand.Intn(s.PopulationSize/2) = rand.Intn(0)`, which panics, and with
`PopulationSize = 0` the loop reads `pop[0]` of an empty slice, which panics —
modelled here as `Solve` returning `none` instead of a well-formed individual.
(The initial fitness on `inputG` is 1000, so the run does not stop before
reproduction.) -/
theorem solve_small_population_panics :
    sPop1.solve inputG 0 = none ∧ sPop0.solve inputG 0 = none := by
  refine ⟨by decide, by decide⟩

/-! ## C7: crossover's shallow copy aliases parent data that mutate then writes -/

/-- Mutation-always configuration (rate 1) for the aliasing demonstration. -/
def sH : Solver := { populationSize := 2, generations := 1, mutationRate := 1 }

/-- A store in which parent 1's five weekdays (cells 0-4) each hold two
periods, and parent 2's five weekdays (cells 5-9) are empty. -/
def storeH : Store :=
  [[[lessonA], []], [[lessonA], []], [[lessonA], []], [[lessonA], []], [[lessonA], []],
   [], [], [], [], []]

/-- Parent 1: one division whose day headers point at cells 0-4. -/
def p1H : IndividualRef := [⟨0, 1, 2, 3, 4⟩]

/-- Parent 2: one division whose day headers point at cells 5-9. -/
def p2H : IndividualRef := [⟨5, 6, 7, 8, 9⟩]

/-- C7 fails on the code: `crossover` copies parent 1's `Days` values — five
slice headers each, not the backing arrays — so the child's weekdays alias
parent 1's (and, for the two overwritten weekdays, parent 2's).  The swap in
`mutate` writes through those headers.  In this concrete run (seed 0, mutation
rate 1) the mutated weekday is one still shared with parent 1, and after
mutating the child, parent 1's dereferenced timetable has changed. -/
theorem mutate_corrupts_parent_via_aliasing :
    ((mutateRef sH (crossoverRef p1H p2H ⟨0⟩).1 storeH (crossoverRef p1H p2H ⟨0⟩).2).map
        fun p => derefDays p.1 (p1H.getD 0 ⟨0, 0, 0, 0, 0⟩)).isSome = true
      ∧ ((mutateRef sH (crossoverRef p1H p2H ⟨0⟩).1 storeH (crossoverRef p1H p2H ⟨0⟩).2).map
          fun p => derefDays p.1 (p1H.getD 0 ⟨0, 0, 0, 0, 0⟩))
        ≠ some (derefDays storeH (p1H.getD 0 ⟨0, 0, 0, 0, 0⟩)) := by
  refine ⟨by decide, by decide⟩
